import Mathlib

/-!
Verification of the multi-provider web-page summarization extension
(`src/lib` of the repository) against its natural-language specification.

JavaScript strings are modelled as `List Char` (one entry per UTF-16 code
unit of the source string).  Host I/O (HTTP, chrome storage, timers) is
modelled by passing the observed outcomes in explicitly; all pure string
processing is translated directly from the TypeScript source.
-/

/-! ## JavaScript string primitives -/

/-- Character class of the JavaScript regular-expression `\s` and of
`String.prototype.trim`: WhiteSpace and LineTerminator code points. -/
def isJsWs (c : Char) : Bool :=
  c = ' ' || c = '\t' || c = '\n' || c = '\r' ||
  c.toNat = 0x0b || c.toNat = 0x0c || c.toNat = 0xa0 || c.toNat = 0xfeff ||
  c.toNat = 0x1680 || (0x2000 ≤ c.toNat && c.toNat ≤ 0x200a) ||
  c.toNat = 0x2028 || c.toNat = 0x2029 || c.toNat = 0x202f ||
  c.toNat = 0x205f || c.toNat = 0x3000

/-- Drop trailing JS whitespace (the right half of `trim()`). -/
def dropTrailWs (l : List Char) : List Char :=
  (l.reverse.dropWhile isJsWs).reverse

/-- JavaScript `String.prototype.trim`. -/
def jsTrim (l : List Char) : List Char :=
  dropTrailWs (l.dropWhile isJsWs)

/-- Whether `pat` occurs as a contiguous substring of `s`
(JavaScript `String.prototype.includes`). -/
def containsSub (pat s : List Char) : Bool :=
  match s with
  | [] => pat.isEmpty
  | _ :: rest => pat.isPrefixOf s || containsSub pat rest

/-- Lower-cased copy of a string (JavaScript `toLowerCase`, ASCII-faithful). -/
def lowerStr (s : List Char) : List Char :=
  s.map Char.toLower

/-- Case-insensitive substring test (used for the source's `/.../i` regexes). -/
def containsCI (pat s : List Char) : Bool :=
  containsSub pat (lowerStr s)

/-! ## Overlap-aware stream-chunk merging

Translated from `mergeStreamChunk` / `findOverlapSuffixPrefix`, which appear
verbatim in both `src/lib/kimi.ts` (lines 461–498) and `src/lib/qwen.ts`
(lines 279–314). -/

/-- Last `n` characters of `l` (JavaScript `slice(-n)` for `0 < n ≤ length`). -/
def takeLast (n : Nat) (l : List Char) : List Char :=
  l.drop (l.length - n)

/-- Search loop of `findOverlapSuffixPrefix`: try overlap lengths from `k`
down to 1, returning the first length where a suffix of `current` equals a
prefix of `next`, and 0 if none matches. -/
def findOverlapAux (current next : List Char) : Nat → Nat
  | 0 => 0
  | k + 1 =>
    if takeLast (k + 1) current = next.take (k + 1) then k + 1
    else findOverlapAux current next k

/-- Embedding of `findOverlapSuffixPrefix` from kimi.ts/qwen.ts: the longest
length that is both a suffix of `current` and a prefix of `next`. -/
def findOverlapSuffixPrefixLen (current next : List Char) : Nat :=
  findOverlapAux current next (min current.length next.length)

/-- Embedding of `mergeStreamChunk` from kimi.ts/qwen.ts: overlap-aware
concatenation of the accumulated stream text with a newly arrived chunk. -/
def mergeStreamChunk (current next : List Char) : List Char :=
  if next = [] then current
  else if current = [] then next
  else if next = current then current
  else if current <+: next then next
  else if next <+: current then current
  else
    let overlap := findOverlapSuffixPrefixLen current next
    if overlap > 0 then current ++ next.drop overlap
    else current ++ next

/-! ## Error model

Translated from `src/lib/errors.ts`. -/

/-- Closed set of machine-readable error kinds (`AppErrorCode` in errors.ts).
The specification names them HttpFailure, AuthExpired, Timeout,
NetworkUnreachable, InvalidInput, InternalFault, Unknown respectively. -/
inductive AppErrorCode where
  | HTTP
  | AUTH
  | TIMEOUT
  | NETWORK
  | VALIDATION
  | RUNTIME
  | UNKNOWN
deriving DecidableEq, Repr

/-- Embedding of the `AppError` class: kind, human message, optional HTTP status. -/
structure AppError where
  message : List Char
  code : AppErrorCode
  status : Option Nat := none
deriving DecidableEq, Repr

/-- Embedding of `mapHttpStatusToMessage` from errors.ts. -/
def mapHttpStatusToMessage (status : Nat) : List Char :=
  if status = 401 ∨ status = 403 then "API Key 无效或无权限，请检查配置。".data
  else if status = 429 then "请求过于频繁，请稍后重试。".data
  else if 500 ≤ status then "模型服务暂时不可用，请稍后重试。".data
  else ("请求失败（HTTP ".data ++ (toString status).data ++ "）。".data)

/-- Embedding of `createHttpError` from errors.ts. -/
def createHttpError (status : Nat) (detail : Option (List Char)) : AppError :=
  let safeDetail := match detail with
    | some d => jsTrim d
    | none => []
  let baseMessage := mapHttpStatusToMessage status
  { message := if safeDetail ≠ [] then baseMessage ++ ' ' :: safeDetail else baseMessage
    code := .HTTP
    status := some status }

/-! ## Settings data model

Translated from `src/lib/types.ts`. -/

/-- The four built-in template identifiers (`DEFAULT_TEMPLATE_IDS`). -/
inductive DefaultTemplateId where
  | short_2sent_3bullets
  | detailed_bg_terms
  | detailed_chapter
  | detailed_fact_opinion
deriving DecidableEq, Repr

/-- Embedding of the `SummaryTemplateId` union: a default id or "custom". -/
inductive SummaryTemplateId where
  | defaultId (d : DefaultTemplateId)
  | custom
deriving DecidableEq, Repr

/-- Embedding of the `ProviderType` union from types.ts. -/
inductive ProviderType where
  | openai
  | kimi_web
deriving DecidableEq, Repr

/-- Embedding of the `ThemePreference` union from types.ts. -/
inductive ThemePreference where
  | system
  | light
  | dark
deriving DecidableEq, Repr

/-- Embedding of the `Settings` record from types.ts (the constant
`outputLanguage: "zh-CN"` field is omitted). -/
structure Settings where
  provider : ProviderType
  apiBaseUrl : List Char
  apiKey : List Char
  model : List Char
  summaryTemplateId : SummaryTemplateId
  lastDefaultTemplateId : DefaultTemplateId
  customSystemPrompt : List Char
  themePreference : ThemePreference
deriving DecidableEq, Repr

/-- Bound on the custom system prompt (`CUSTOM_PROMPT_MAX_LENGTH` in types.ts). -/
def CUSTOM_PROMPT_MAX_LENGTH : Nat := 2000

/-- String-to-id parse modelling `isDefaultTemplateId` from types.ts. -/
def parseDefaultTemplateId (s : List Char) : Option DefaultTemplateId :=
  if s = "short_2sent_3bullets".data then some .short_2sent_3bullets
  else if s = "detailed_bg_terms".data then some .detailed_bg_terms
  else if s = "detailed_chapter".data then some .detailed_chapter
  else if s = "detailed_fact_opinion".data then some .detailed_fact_opinion
  else none

/-- String-to-id parse modelling `isSummaryTemplateId` from types.ts. -/
def parseSummaryTemplateId (s : List Char) : Option SummaryTemplateId :=
  if s = "custom".data then some .custom
  else (parseDefaultTemplateId s).map .defaultId

/-- String parse modelling `isProviderType` from types.ts. -/
def parseProviderType (s : List Char) : Option ProviderType :=
  if s = "openai".data then some .openai
  else if s = "kimi_web".data then some .kimi_web
  else none

/-- String parse modelling `isThemePreference` from types.ts. -/
def parseThemePreference (s : List Char) : Option ThemePreference :=
  if s = "system".data then some .system
  else if s = "light".data then some .light
  else if s = "dark".data then some .dark
  else none

/-! ## Settings sanitization and token store

Translated from `src/lib/storage.ts`.  The chrome key-value store is
modelled as an explicit `StorageState` record threaded through every
operation; `new Date().toISOString()` is passed in as `now`. -/

/-- Raw (untrusted) stored settings value: each field is present as a string
or effectively absent (missing, or of a non-string runtime type, which the
source's `typeof` checks treat identically). -/
structure RawSettings where
  provider : Option (List Char) := none
  apiBaseUrl : Option (List Char) := none
  apiKey : Option (List Char) := none
  model : Option (List Char) := none
  summaryTemplateId : Option (List Char) := none
  legacySummaryFormat : Option (List Char) := none
  lastDefaultTemplateId : Option (List Char) := none
  customSystemPrompt : Option (List Char) := none
  themePreference : Option (List Char) := none
deriving DecidableEq, Repr

/-- Embedding of `normalizeBaseUrl` from storage.ts (and the identical helper
in the REST transport): trim, then strip trailing slashes. -/
def normalizeBaseUrl (url : List Char) : List Char :=
  ((jsTrim url).reverse.dropWhile (· = '/')).reverse

/-- Embedding of `normalizeCustomSystemPrompt` from storage.ts (lines 69–74):
trim, then cut to `CUSTOM_PROMPT_MAX_LENGTH` (JavaScript `slice(0, max)`). -/
def normalizeCustomSystemPrompt (prompt : Option (List Char)) : List Char :=
  let input := jsTrim (prompt.getD [])
  if input.length > CUSTOM_PROMPT_MAX_LENGTH then input.take CUSTOM_PROMPT_MAX_LENGTH
  else input

/-- Embedding of `resolveProvider` from storage.ts. -/
def resolveProvider (value : Option RawSettings) : ProviderType :=
  match value.bind (·.provider) with
  | some s => (parseProviderType s).getD .openai
  | none => .openai

/-- Embedding of `resolveSummaryTemplateId` from storage.ts (with the legacy
`summaryFormat` fallback). -/
def resolveSummaryTemplateId (value : Option RawSettings) : SummaryTemplateId :=
  let raw :=
    match value.bind (·.summaryTemplateId) with
    | some s => s
    | none =>
      match value.bind (·.legacySummaryFormat) with
      | some s => s
      | none => "short_2sent_3bullets".data
  (parseSummaryTemplateId raw).getD (.defaultId .short_2sent_3bullets)

/-- Embedding of `resolveLastDefaultTemplateId` from storage.ts. -/
def resolveLastDefaultTemplateId (value : Option RawSettings)
    (summaryTemplateId : SummaryTemplateId) : DefaultTemplateId :=
  match value.bind (·.lastDefaultTemplateId) with
  | some s => (parseDefaultTemplateId s).getD .short_2sent_3bullets
  | none =>
    match summaryTemplateId with
    | .defaultId d => d
    | .custom => .short_2sent_3bullets

/-- Embedding of `resolveThemePreference` from storage.ts. -/
def resolveThemePreference (value : Option RawSettings) : ThemePreference :=
  match value.bind (·.themePreference) with
  | some s => (parseThemePreference s).getD .system
  | none => .system

/-- Embedding of `sanitizeSettings` from storage.ts; `getSettings` and
`saveSettings` both return exactly the image of this function. -/
def sanitizeSettings (value : Option RawSettings) : Settings :=
  let summaryTemplateId := resolveSummaryTemplateId value
  { provider := resolveProvider value
    apiBaseUrl := normalizeBaseUrl ((value.bind (·.apiBaseUrl)).getD "https://api.openai.com".data)
    apiKey := jsTrim ((value.bind (·.apiKey)).getD [])
    model := jsTrim ((value.bind (·.model)).getD [])
    summaryTemplateId := summaryTemplateId
    lastDefaultTemplateId := resolveLastDefaultTemplateId value summaryTemplateId
    customSystemPrompt := normalizeCustomSystemPrompt (value.bind (·.customSystemPrompt))
    themePreference := resolveThemePreference value }

/-- Embedding of the `KimiTokens` record from types.ts. -/
structure KimiTokens where
  refreshToken : List Char
  accessToken : Option (List Char)
  updatedAt : List Char
deriving DecidableEq, Repr

/-- Embedding of the `QwenTokens` record. -/
structure QwenTokens where
  token : List Char
  updatedAt : List Char
  account : Option (List Char)
deriving DecidableEq, Repr

/-- Persisted key-value store as seen by storage.ts (settings and history
entries are not needed by any claim and are omitted). -/
structure StorageState where
  kimiTokens : Option KimiTokens := none
  qwenTokens : Option QwenTokens := none
deriving DecidableEq, Repr

/-- Embedding of `saveKimiTokens` from storage.ts (lines 245–261): reject a
blank refresh credential, otherwise persist the trimmed pair.  The returned
state is the store after the call. -/
def saveKimiTokens (st : StorageState) (now refreshToken : List Char)
    (accessToken : Option (List Char)) : StorageState × Except AppError KimiTokens :=
  let r := jsTrim refreshToken
  if r = [] then
    (st, .error { message := "Kimi 登录状态无效，请重新连接。".data, code := .AUTH })
  else
    let tokenState : KimiTokens :=
      { refreshToken := r
        accessToken :=
          match accessToken with
          | some a => if jsTrim a ≠ [] then some (jsTrim a) else none
          | none => none
        updatedAt := now }
    ({ st with kimiTokens := some tokenState }, .ok tokenState)

/-- Embedding of `saveQwenTokens` from storage.ts (lines 315–331). -/
def saveQwenTokens (st : StorageState) (now token : List Char)
    (account : Option (List Char)) : StorageState × Except AppError QwenTokens :=
  let t := jsTrim token
  if t = [] then
    (st, .error { message := "Qwen 登录状态无效，请重新连接。".data, code := .AUTH })
  else
    let tokenState : QwenTokens :=
      { token := t
        account :=
          match account with
          | some a => if jsTrim a ≠ [] then some (jsTrim a) else none
          | none => none
        updatedAt := now }
    ({ st with qwenTokens := some tokenState }, .ok tokenState)

/-! ## Prompt builder

Translated from `src/lib/prompt.ts`. -/

/-- Embedding of `resolveEffectiveTemplateId` from prompt.ts (lines 89–95). -/
def resolveEffectiveTemplateId (settings : Settings) : SummaryTemplateId :=
  if settings.summaryTemplateId ≠ .custom then settings.summaryTemplateId
  else if 0 < (jsTrim settings.customSystemPrompt).length then .custom
  else .defaultId settings.lastDefaultTemplateId

/-! ## Key-based REST transport

Translated from the `fetchModels` function of the REST transport module.
The single HTTP round trip is abstracted by a `FetchOutcome` describing what
the host `fetch` produced. -/

/-- Parsed models-listing response body: the optional `data` array whose
items have an optional `id` string, plus the optional `error.message`
probed by `parseErrorDetail` on failure responses. -/
structure ModelListBody where
  data : Option (List (Option (List Char))) := none
  errorMessage : Option (List Char) := none
deriving DecidableEq, Repr

/-- Observable outcome of one `fetchWithTimeout` call: a response with a
status and parsed body, a client-side timeout abort, or another transport
failure. -/
inductive FetchOutcome where
  | resp (status : Nat) (body : ModelListBody)
  | aborted
  | netFailure
deriving DecidableEq, Repr

/-- Code-point lexicographic collation: one concrete value the host
collation can take, used to instantiate witnesses. -/
def cpLe (a b : List Char) : Bool :=
  decide (a ≤ b)

/-- Concrete collation oracle exhibiting the ICU root behaviour on ASCII
letters: letter identity collates before case, so "a" precedes "B"
although its code point is larger.  Used to instantiate the collation at
a locale order that differs from code-point order. -/
def icuLikeLe (a b : List Char) : Bool :=
  if lowerStr a = lowerStr b then decide (a ≤ b) else decide (lowerStr a ≤ lowerStr b)

/-- Embedding of `fetchModels`: validation, HTTP dispatch, and
normalization of the returned model identifiers.  The source sorts with
`(a, b) => a.localeCompare(b)`; the runtime locale's collation is host
behaviour, passed in as the oracle `localeLe` with `localeLe a b` meaning
`a.localeCompare(b) <= 0`.  JavaScript's `sort` is a stable sort by the
comparator, modelled as insertion sort by `localeLe`. -/
def fetchModels (localeLe : List Char → List Char → Bool)
    (apiBaseUrl apiKey : List Char) (outcome : FetchOutcome) :
    Except AppError (List (List Char)) :=
  let base := normalizeBaseUrl apiBaseUrl
  let key := jsTrim apiKey
  if base = [] then .error { message := "请先填写 API 地址。".data, code := .VALIDATION }
  else if key = [] then .error { message := "请先填写 API Key。".data, code := .VALIDATION }
  else
    match outcome with
    | .aborted => .error { message := "请求超时，请重试。".data, code := .TIMEOUT }
    | .netFailure =>
      .error { message := "网络连接失败，请检查 API 地址或网络状态。".data, code := .NETWORK }
    | .resp status body =>
      if ¬ (200 ≤ status ∧ status ≤ 299) then .error (createHttpError status body.errorMessage)
      else
        let models :=
          List.insertionSort (fun a b => localeLe a b = true)
            (((body.data.getD []).map (fun item => jsTrim (item.getD []))).filter
              (fun id => 0 < id.length))
        if models = [] then
          .error { message := "模型列表为空，请手动输入模型名称。".data, code := .RUNTIME }
        else .ok models

/-! ## Authenticated request wrapper

Translated from `requestWithAuth` in `src/lib/kimi.ts` (lines 176–235).
The two possible upstream requests and the at-most-two token refreshes are
abstracted by outcome oracles; the trace records how many of each were
issued, the auth-invalidation callbacks, and every `onTokens` persistence
in order (each refresh persists before the retried request is issued). -/

/-- Outcome of one `execute` upstream call: an HTTP status, or a thrown
transport error (timeout / network). -/
inductive ExecOutcome where
  | status (code : Nat)
  | threw (e : AppError)
deriving DecidableEq, Repr

/-- Outcome of one `refreshAccessToken` call. -/
inductive RefreshOutcome where
  | ok (accessToken refreshToken : List Char)
  | threw (e : AppError)
deriving DecidableEq, Repr

/-- Constant auth failure built by `ensureAuthError` in kimi.ts. -/
def kimiAuthError (status : Option Nat) : AppError :=
  { message := "登录状态失效，请重新连接 Kimi".data, code := .AUTH, status := status }

/-- Embedding of `isAuthLikeError` from kimi.ts. -/
def isAuthLikeError (e : AppError) : Bool :=
  e.code = .AUTH || e.status = some 401 || e.status = some 403

/-- Observable trace of one `requestWithAuth` invocation. -/
structure RequestWithAuthTrace where
  result : Except AppError Nat
  upstreamCalls : Nat
  refreshCalls : Nat
  authInvalidCalls : Nat
  tokensSaved : List KimiTokens
deriving Repr

/-- Tail of `requestWithAuth` after the optional initial refresh: first
upstream try, refresh-and-retry on 401/403, auth invalidation on a second
401/403.  `nextRefresh` is the outcome of the (single possible) further
refresh; `refreshes`/`saved` account for the initial refresh if it ran. -/
def requestWithAuthAfterInit (now : List Char) (refreshes : Nat)
    (saved : List KimiTokens) (nextRefresh : RefreshOutcome)
    (exec1 exec2 : ExecOutcome) : RequestWithAuthTrace :=
  match exec1 with
  | .threw e => ⟨.error e, 1, refreshes, 0, saved⟩
  | .status s =>
    if s ≠ 401 ∧ s ≠ 403 then ⟨.ok s, 1, refreshes, 0, saved⟩
    else
      match nextRefresh with
      | .threw e =>
        if isAuthLikeError e then ⟨.error (kimiAuthError (some 401)), 1, refreshes + 1, 1, saved⟩
        else ⟨.error e, 1, refreshes + 1, 0, saved⟩
      | .ok acc ref =>
        let t2 : KimiTokens := ⟨ref, some acc, now⟩
        match exec2 with
        | .threw e => ⟨.error e, 2, refreshes + 1, 0, saved ++ [t2]⟩
        | .status s2 =>
          if s2 = 401 ∨ s2 = 403 then
            ⟨.error (kimiAuthError (some s2)), 2, refreshes + 1, 1, saved ++ [t2]⟩
          else ⟨.ok s2, 2, refreshes + 1, 0, saved ++ [t2]⟩

/-- Embedding of `requestWithAuth`: when no access credential is cached an
initial refresh runs first (consuming `refresh1`); afterwards at most one
further refresh (`refresh2` there, `refresh1` otherwise) and at most one
retry are attempted. -/
def requestWithAuth (tokens : KimiTokens) (now : List Char)
    (refresh1 refresh2 : RefreshOutcome) (exec1 exec2 : ExecOutcome) :
    RequestWithAuthTrace :=
  match tokens.accessToken with
  | some _ => requestWithAuthAfterInit now 0 [] refresh1 exec1 exec2
  | none =>
    match refresh1 with
    | .threw e =>
      if isAuthLikeError e then ⟨.error (kimiAuthError (some 401)), 0, 1, 1, []⟩
      else ⟨.error e, 0, 1, 0, []⟩
    | .ok acc ref =>
      let t1 : KimiTokens := ⟨ref, some acc, now⟩
      requestWithAuthAfterInit now 1 [t1] refresh2 exec1 exec2

/-! ## Kimi orchestrator: file-first dispatch

Translated from `summarizeWithKimi` and `shouldPreferFileMode` in
`src/lib/kimiAuth.ts`.  The file path and the text path are abstracted by
their outcomes; the trace counts how many times each path ran. -/

/-- Test for the `/\.pdf(?:$|[?#])/i` pattern at the head of a string. -/
def pdfHere (s : List Char) : Bool :=
  match s with
  | '.' :: 'p' :: 'd' :: 'f' :: rest =>
    match rest with
    | [] => true
    | c :: _ => c = '?' || c = '#'
  | _ => false

/-- Whether predicate `p` holds at some position (suffix) of the list. -/
def anyPos (p : List Char → Bool) : List Char → Bool
  | [] => p []
  | c :: rest => p (c :: rest) || anyPos p rest

/-- Embedding of `shouldPreferFileMode` from kimiAuth.ts (lines 184–192):
PDF links, known video-hosting domains, and arXiv match file-first mode. -/
def shouldPreferFileMode (url : List Char) : Bool :=
  anyPos pdfHere (lowerStr url) ||
  containsCI "youtube.com".data url || containsCI "youtu.be".data url ||
  containsCI "bilibili.com".data url || containsCI "vimeo.com".data url ||
  containsCI "arxiv.org".data url

/-- Observable trace of one `summarizeWithKimi` dispatch. -/
structure KimiSummarizeTrace where
  result : Except AppError (List Char)
  filePathRuns : Nat
  textPathRuns : Nat
deriving Repr

/-- Embedding of the dispatch logic of `summarizeWithKimi` (kimiAuth.ts
lines 307–319), after `ensureKimiRefreshToken` has succeeded: file-first
URLs run the file path and fall back to the text path exactly once unless
the failure is an AUTH error, which is rethrown. -/
def summarizeWithKimi (url : List Char)
    (fileOutcome textOutcome : Except AppError (List Char)) : KimiSummarizeTrace :=
  if shouldPreferFileMode url then
    match fileOutcome with
    | .ok s => ⟨.ok s, 1, 0⟩
    | .error e => if e.code = .AUTH then ⟨.error e, 1, 0⟩ else ⟨textOutcome, 1, 1⟩
  else ⟨textOutcome, 0, 1⟩

/-! ## Markdown normalization

Translated from `normalizeSummaryMarkdown` and its helpers in
`src/lib/markdown.ts`.  The regular-expression replacements of the source
are translated as explicit left-to-right scanners with exactly the
JavaScript matching semantics (greedy quantifiers, global scan resuming
after each match, `m`-flag anchoring at line starts). -/

/-- Number of leading characters satisfying `p`. -/
def countLeading (p : Char → Bool) : List Char → Nat
  | [] => 0
  | c :: rest => if p c then countLeading p rest + 1 else 0

/-- JavaScript `replace(/\r\n?/g, "\n")`: every CRLF pair and every lone
CR becomes a single newline. -/
def normCR : List Char → List Char
  | [] => []
  | c :: rest =>
    if c = '\r' then
      match rest with
      | [] => ['\n']
      | d :: rest2 => if d = '\n' then '\n' :: normCR rest2 else '\n' :: normCR (d :: rest2)
    else c :: normCR rest

/-- JavaScript `replace(/^﻿/, "")`. -/
def stripBOM : List Char → List Char
  | [] => []
  | c :: rest => if c.toNat = 0xfeff then rest else c :: rest

/-- JavaScript `String.prototype.split` on a single-character separator. -/
def splitOnChar (sep : Char) : List Char → List (List Char)
  | [] => [[]]
  | c :: rest =>
    if c = sep then [] :: splitOnChar sep rest
    else
      match splitOnChar sep rest with
      | l :: ls => (c :: l) :: ls
      | [] => [[c]]

/-- Split a string into its lines (`split("\n")`). -/
def splitNl : List Char → List (List Char) :=
  splitOnChar '\n'

/-- JavaScript `Array.prototype.join` on a single-character separator. -/
def joinWith (sep : Char) : List (List Char) → List Char
  | [] => []
  | l :: ls => l ++ (if ls.isEmpty then [] else sep :: joinWith sep ls)

/-- Join lines back with newlines (`join("\n")`). -/
def joinNl : List (List Char) → List Char :=
  joinWith '\n'

/-- Embedding of `normalizeHeadingSpacing` from markdown.ts: the
line-anchored replacement `^(\s{0,3}#{1,6})([^\s#])` → `$1 $2`. -/
def normalizeHeadingSpacing (line : List Char) : List Char :=
  let w := countLeading isJsWs line
  if w > 3 then line
  else
    let k := countLeading (· = '#') (line.drop w)
    if 1 ≤ k ∧ k ≤ 6 then
      match (line.drop (w + k)).head? with
      | some c => if isJsWs c then line else line.take (w + k) ++ ' ' :: line.drop (w + k)
      | none => line
    else line

/-- Embedding of `isPipeRow` from markdown.ts: the trimmed line starts and
ends with a pipe (regex `^\s*\|.*\|\s*$` on the trimmed line). -/
def isPipeRow (line : List Char) : Bool :=
  let t := jsTrim line
  2 ≤ t.length && t.head? = some '|' && t.getLast? = some '|'

/-- Exact match of the separator-cell pattern `:?-{3,}:?`. -/
def isSepCellStr (t : List Char) : Bool :=
  let t1 := if t.head? = some ':' then t.drop 1 else t
  let d := countLeading (· = '-') t1
  let t2 := t1.drop d
  3 ≤ d && (t2 = [] || t2 = [':'])

/-- Embedding of `isTableSeparator` from markdown.ts: an optionally
pipe-delimited row of at least two `:?-{3,}:?` cells. -/
def isTableSeparator (line : List Char) : Bool :=
  let t := jsTrim line
  let parts := splitOnChar '|' t
  let parts1 := if parts.head? = some [] then parts.drop 1 else parts
  let parts2 := if parts1.getLast? = some [] then parts1.dropLast else parts1
  2 ≤ parts2.length && parts2.all (fun p => isSepCellStr (jsTrim p))

/-- Embedding of `normalizePipeHeavyLine` from markdown.ts: a line with at
least four pipes and at least two non-separator cells becomes a list item. -/
def normalizePipeHeavyLine (line : List Char) : List Char :=
  let pipeCount := line.countP (· = '|')
  if pipeCount < 4 then line
  else
    let segments :=
      ((splitOnChar '|' line).map jsTrim).filter
        (fun segment => 0 < segment.length && !isSepCellStr segment)
    if segments.length < 2 then line
    else '-' :: ' ' :: joinWith '；' segments

/-- Embedding of the line loop of `normalizeSummaryMarkdown` (markdown.ts
lines 54–81): heading-spacing fix plus the pipe-table state machine.  The
lookahead `next` is the raw following line, as in the source; the source's
final unreachable `push(current)` branch is dropped. -/
def stage1 (inTable : Bool) : List (List Char) → List (List Char)
  | [] => []
  | l :: rest =>
    let cur := normalizeHeadingSpacing l
    let next := (rest.head?).getD []
    if inTable && (isPipeRow cur || isTableSeparator cur) then
      cur :: stage1 true rest
    else if isPipeRow cur && isTableSeparator next then
      cur :: stage1 true rest
    else
      normalizePipeHeavyLine cur :: stage1 false rest

/-- Space-or-tab test (the character class `[ \t]`). -/
def isST (c : Char) : Bool :=
  c = ' ' || c = '\t'

/-- JavaScript `replace(/[ \t]+\n/g, "\n")`: a space or tab is deleted
exactly when only spaces and tabs stand between it and the next newline. -/
def r1 : List Char → List Char
  | [] => []
  | c :: rest =>
    if isST c && (rest.dropWhile isST).head? = some '\n' then r1 rest
    else c :: r1 rest

/-- Greedy parse of `#{1,6}\s` at the head of the string: the maximal
leading run of 1–6 hashes followed by a JS whitespace character (which may
itself be a newline).  A run of 7 or more hashes can never match. -/
def parseHashWs (s : List Char) : Option (Nat × Char) :=
  let k := countLeading (· = '#') s
  if 1 ≤ k ∧ k ≤ 6 then
    match (s.drop k).head? with
    | some w => if isJsWs w then some (k, w) else none
    | none => none
  else none

/-- JavaScript `replace(/([^\n])\n(#{1,6}\s)/g, "$1\n\n$2")` as a
left-to-right scanner; after a match the scan resumes past the consumed
`\s`, so overlapping occurrences are not rewritten (observable behaviour of
the source on streams of bare heading markers). -/
def r2 : List Char → List Char
  | [] => []
  | c :: rest =>
    match (if c ≠ '\n' ∧ rest.head? = some '\n' then parseHashWs (rest.drop 1) else none) with
    | some (k, w) =>
      c :: '\n' :: '\n' :: (List.replicate k '#' ++ w :: r2 ((rest.drop 1).drop (k + 1)))
    | none => c :: r2 rest
  termination_by l => l.length
  decreasing_by
    all_goals first
      | (simp [List.length_drop]; omega)
      | simp [List.length_drop]

/-- Negative-lookahead alternatives `(?!\n|#|- |\* |\+ |\d+\. |> |\|)` of
the blank-line-after-heading replacement in markdown.ts. -/
def lookaheadExcluded (s : List Char) : Bool :=
  s.head? = some '\n' || s.head? = some '#' ||
  "- ".data.isPrefixOf s || "* ".data.isPrefixOf s || "+ ".data.isPrefixOf s ||
  "> ".data.isPrefixOf s || s.head? = some '|' ||
  (let d := countLeading Char.isDigit s
   decide (0 < d) && ". ".data.isPrefixOf (s.drop d))

/-- Negative-lookahead alternatives `(?!\n|#|- |\d+\. |\|)` of the variant
replacement in qwen.ts `normalizeMarkdownLayout`. -/
def lookaheadExcludedQwen (s : List Char) : Bool :=
  s.head? = some '\n' || s.head? = some '#' ||
  "- ".data.isPrefixOf s || s.head? = some '|' ||
  (let d := countLeading Char.isDigit s
   decide (0 < d) && ". ".data.isPrefixOf (s.drop d))

/-- Greedy parse of `#{1,6}\s[^\n]+` followed by `\n` and a negative
lookahead, at a line start: returns the hash count and the body length. -/
def parseHeadingR3 (excl : List Char → Bool) (s : List Char) : Option (Nat × Nat) :=
  match parseHashWs s with
  | none => none
  | some (k, _) =>
    let bodyLen := ((s.drop (k + 1)).takeWhile (· ≠ '\n')).length
    if 1 ≤ bodyLen ∧ (s.drop (k + 1 + bodyLen)).head? = some '\n' ∧
        excl (s.drop (k + 2 + bodyLen)) = false then
      some (k, bodyLen)
    else none

/-- JavaScript `replace(/^(#{1,6}\s[^\n]+)\n(?!…)/gm, "$1\n\n")` as a
scanner tracking whether the current position is a line start; `excl` is
the lookahead alternative set. -/
def r3Aux (excl : List Char → Bool) (atLineStart : Bool) : List Char → List Char
  | [] => []
  | c :: rest =>
    match (if atLineStart then parseHeadingR3 excl (c :: rest) else none) with
    | some (k, bodyLen) =>
      (c :: rest).take (k + 1 + bodyLen) ++ '\n' :: '\n' ::
        r3Aux excl true ((c :: rest).drop (k + 2 + bodyLen))
    | none => c :: r3Aux excl (c = '\n') rest
  termination_by l => l.length
  decreasing_by
    all_goals first
      | (simp [List.length_drop]; omega)
      | simp [List.length_drop]

/-- The markdown.ts instance of the blank-line-after-heading replacement. -/
def r3 (s : List Char) : List Char :=
  r3Aux lookaheadExcluded true s

/-- JavaScript `replace(/\n{3,}/g, "\n\n")`: a newline is deleted exactly
when the two following characters are also newlines, collapsing every
maximal run of three or more newlines to two. -/
def r4 : List Char → List Char
  | [] => []
  | c :: rest =>
    if c = '\n' && rest.head? = some '\n' && rest.tail.head? = some '\n' then r4 rest
    else c :: r4 rest

/-- Embedding of `normalizeSummaryMarkdown` from markdown.ts (lines 47–90):
early return on blank input, newline/BOM normalization, the per-line
heading/table stage, then the four replacements and a final trim. -/
def normalizeSummaryMarkdown (markdown : List Char) : List Char :=
  if jsTrim markdown = [] then markdown
  else
    let input := stripBOM (normCR markdown)
    let joined := joinNl (stage1 false (splitNl input))
    jsTrim (r4 (r3 (r2 (r1 joined))))

/-- Line-anchored replacement `^(#{1,6})([^\s#])` → `$1 $2` of qwen.ts
`normalizeMarkdownLayout` (no leading-whitespace allowance). -/
def headFixLineQwen (line : List Char) : List Char :=
  let k := countLeading (· = '#') line
  if 1 ≤ k ∧ k ≤ 6 then
    match (line.drop k).head? with
    | some c => if isJsWs c then line else line.take k ++ ' ' :: line.drop k
    | none => line
  else line

/-- JavaScript `replace(/\r\n/g, "\n")` (pairs only, unlike markdown.ts). -/
def normCRLFOnly : List Char → List Char
  | [] => []
  | c :: rest =>
    if c = '\r' then
      match rest with
      | [] => ['\r']
      | d :: rest2 =>
        if d = '\n' then '\n' :: normCRLFOnly rest2 else '\r' :: normCRLFOnly (d :: rest2)
    else c :: normCRLFOnly rest

/-- Embedding of `normalizeMarkdownLayout` from qwen.ts (lines 369–379). -/
def normalizeMarkdownLayout (text : List Char) : List Char :=
  let o1 := joinNl ((splitNl (normCRLFOnly text)).map headFixLineQwen)
  jsTrim (r4 (r3Aux lookaheadExcludedQwen true (r2 (r1 o1))))

/-! ## Prompt-echo stripping

Translated from `stripPromptEcho`, identical in kimi.ts (lines 524–551) and
qwen.ts (lines 340–367). -/

/-- JavaScript `output.split(sep).join("")` for a non-empty separator:
remove every non-overlapping occurrence, scanning left to right. -/
def removeAllSub (sep : List Char) : List Char → List Char
  | [] => []
  | c :: rest =>
    if _h : sep ≠ [] ∧ sep.isPrefixOf (c :: rest) then
      removeAllSub sep ((c :: rest).drop sep.length)
    else c :: removeAllSub sep rest
  termination_by l => l.length
  decreasing_by
    all_goals first
      | (have hlen : 0 < sep.length := List.length_pos.mpr _h.1
         simp [List.length_drop]
         omega)
      | simp

/-- Index of the last occurrence of `pat` (JavaScript `lastIndexOf`). -/
def lastIndexOfSub (pat s : List Char) : Option Nat :=
  (((List.range (s.length + 1)).filter (fun i => pat.isPrefixOf (s.drop i)))).getLast?

/-- One iteration of the noisy-prefix loop in `stripPromptEcho`. -/
def noisyStep (output pre : List Char) : List Char :=
  if pre.isPrefixOf output then
    match lastIndexOfSub pre output with
    | some lastIdx => if 0 < lastIdx then jsTrim (output.drop lastIdx) else output
    | none => output
  else output

/-- Instruction-prefix strings recognized by `stripPromptEcho`. -/
def noisyPrefixes : List (List Char) :=
  ["请严格遵循以下要求进行网页总结。".data, "【系统要求】".data, "【用户请求】".data,
   "请总结以下网页内容：".data]

/-- Embedding of `stripPromptEcho`: delete verbatim prompt echoes, then cut
everything up to the last occurrence of a leading noisy prefix. -/
def stripPromptEcho (text prompt : List Char) : List Char :=
  let output := jsTrim text
  let cleanPrompt := jsTrim prompt
  if output = [] then output
  else
    let output1 :=
      if cleanPrompt ≠ [] ∧ containsSub cleanPrompt output then
        jsTrim (removeAllSub cleanPrompt output)
      else output
    noisyPrefixes.foldl noisyStep output1

/-! ## Streamed JSON payloads

The providers' SSE `data:` lines carry JSON documents (parsed by the host
`JSON.parse`); they are modelled by an explicit JSON value type.  Field
probing, role/event classification and text extraction are translated from
the identical helper blocks of kimi.ts and qwen.ts. -/

/-- Parsed JSON value. -/
inductive Json where
  | str (s : List Char)
  | num (n : Int)
  | boolean (b : Bool)
  | null
  | arr (items : List Json)
  | obj (fields : List (List Char × Json))

/-- Named fields of a value when it is `object`-typed in JavaScript
(`null` is excluded by the sources' truthiness guard; an array is
object-typed but has no named fields of interest). -/
def jsonFieldsOf : Json → Option (List (List Char × Json))
  | .obj fields => some fields
  | .arr _ => some []
  | _ => none

/-- Embedding of `normalizeToken` from kimi.ts/qwen.ts on an optional
field value: trim a string, anything else is blank. -/
def normalizeTokenJ : Option Json → List Char
  | some (.str s) => jsTrim s
  | _ => []

/-- Embedding of `asRawText`: a string verbatim, anything else is blank. -/
def asRawTextJ : Option Json → List Char
  | some (.str s) => s
  | _ => []

/-- First non-blank string of a candidate list (the sources' `find` /
`||` chains over string candidates). -/
def firstNonNil : List (List Char) → List Char
  | [] => []
  | s :: rest => if s ≠ [] then s else firstNonNil rest

/-- Embedding of `getStringField` from kimi.ts (lines 109–133) and qwen.ts
(lines 83–107): probe the keys directly, then nested under `data`. -/
def getStringField (payload : Json) (keys : List (List Char)) : List Char :=
  match jsonFieldsOf payload with
  | none => []
  | some fields =>
    let direct := firstNonNil (keys.map (fun k => normalizeTokenJ (fields.lookup k)))
    if direct ≠ [] then direct
    else
      match fields.lookup "data".data with
      | some nested =>
        match jsonFieldsOf nested with
        | some nf => firstNonNil (keys.map (fun k => normalizeTokenJ (nf.lookup k)))
        | none => []
      | none => []

/-- Embedding of `getPayloadErrorCode` from qwen.ts. -/
def getPayloadErrorCode (payload : Json) : List Char :=
  getStringField payload ["code".data, "error_code".data, "errorCode".data]

/-- Embedding of `getPayloadErrorDetail` from qwen.ts. -/
def getPayloadErrorDetail (payload : Json) : List Char :=
  getStringField payload
    ["details".data, "detail".data, "message".data, "msg".data, "error".data, "errorMsg".data]

/-- Embedding of `isUnauthorizedCode` from qwen.ts (lines 117–124). -/
def isUnauthorizedCode (code : List Char) : Bool :=
  let value := lowerStr (jsTrim code)
  value ≠ [] &&
    (containsSub "unauthorized".data value || containsSub "forbidden".data value ||
     containsSub "token".data value)

/-- Embedding of `isUnauthorizedDetail` from qwen.ts (lines 126–138). -/
def isUnauthorizedDetail (detail : List Char) : Bool :=
  let value := lowerStr (jsTrim detail)
  value ≠ [] &&
    (containsSub "unauthorized".data value || containsSub "session has expired".data value ||
     containsSub "token is no longer valid".data value || containsSub "no permission".data value)

/-- Embedding of `isUnauthorizedPayload` from qwen.ts (lines 140–144): the
authorization-failure payload shape detected inside 200-status streams. -/
def isUnauthorizedPayload (payload : Json) : Bool :=
  isUnauthorizedCode (getPayloadErrorCode payload) ||
  isUnauthorizedDetail (getPayloadErrorDetail payload)

/-- Probe `data[key]?.role`-style nested access under a named field. -/
def subField (fields : List (List Char × Json)) (key inner : List Char) : List Char :=
  match fields.lookup key with
  | some v =>
    match jsonFieldsOf v with
    | some vf => normalizeTokenJ (vf.lookup inner)
    | none => []
  | none => []

/-- Loop over `choices[]` probing `delta.content` then `message.content`
(tail of `extractStreamText`). -/
def textFromChoices : List Json → List Char
  | [] => []
  | choice :: rest =>
    match jsonFieldsOf choice with
    | some cf =>
      let viaDelta :=
        match cf.lookup "delta".data with
        | some d =>
          match jsonFieldsOf d with
          | some df => asRawTextJ (df.lookup "content".data)
          | none => []
        | none => []
      if viaDelta ≠ [] then viaDelta
      else
        let viaMessage :=
          match cf.lookup "message".data with
          | some m =>
            match jsonFieldsOf m with
            | some mf => asRawTextJ (mf.lookup "content".data)
            | none => []
          | none => []
        if viaMessage ≠ [] then viaMessage
        else textFromChoices rest
    | none => textFromChoices rest

/-- Nested-field probe loop of `extractStreamText` over
`data`/`message`/`delta`/`result`. -/
def textFromNested (fields : List (List Char × Json)) : List (List Char) → List Char
  | [] => []
  | key :: rest =>
    match fields.lookup key with
    | some nested =>
      match jsonFieldsOf nested with
      | some nf =>
        let t := firstNonNil
          [asRawTextJ (nf.lookup "text".data), asRawTextJ (nf.lookup "delta".data),
           asRawTextJ (nf.lookup "content".data)]
        if t ≠ [] then t else textFromNested fields rest
      | none => textFromNested fields rest
    | none => textFromNested fields rest

/-- Embedding of `extractStreamText` (kimi.ts lines 337–397, qwen.ts lines
155–215): direct fields, then one nesting level, then OpenAI-style
`choices[]`. -/
def extractStreamText (payload : Json) : List Char :=
  match jsonFieldsOf payload with
  | none => []
  | some fields =>
    let direct := firstNonNil
      [asRawTextJ (fields.lookup "text".data), asRawTextJ (fields.lookup "delta".data),
       asRawTextJ (fields.lookup "content".data), asRawTextJ (fields.lookup "reply".data)]
    if direct ≠ [] then direct
    else
      let nested := textFromNested fields ["data".data, "message".data, "delta".data, "result".data]
      if nested ≠ [] then nested
      else
        match fields.lookup "choices".data with
        | some (.arr choices) => textFromChoices choices
        | _ => []

/-- Role probe loop over `choices[]` (tail of `extractStreamRole`). -/
def roleFromChoices : List Json → List Char
  | [] => []
  | choice :: rest =>
    match jsonFieldsOf choice with
    | some cf =>
      let r := firstNonNil
        [subField cf "delta".data "role".data, subField cf "message".data "role".data,
         normalizeTokenJ (cf.lookup "role".data)]
      if r ≠ [] then lowerStr r else roleFromChoices rest
    | none => roleFromChoices rest

/-- Embedding of `extractStreamRole` (kimi.ts lines 399–434). -/
def extractStreamRole (payload : Json) : List Char :=
  match jsonFieldsOf payload with
  | none => []
  | some fields =>
    let cand := firstNonNil
      [normalizeTokenJ (fields.lookup "role".data), subField fields "data".data "role".data,
       subField fields "message".data "role".data, subField fields "delta".data "role".data,
       subField fields "result".data "role".data]
    if cand ≠ [] then lowerStr cand
    else
      match fields.lookup "choices".data with
      | some (.arr choices) => roleFromChoices choices
      | _ => []

/-- Embedding of `extractStreamEvent` (kimi.ts lines 436–451): the SSE
event name when set, otherwise `event`/`data.event`/`type` fields. -/
def extractStreamEvent (payload : Json) (sseEventName : List Char) : List Char :=
  if jsTrim sseEventName ≠ [] then lowerStr (jsTrim sseEventName)
  else
    match jsonFieldsOf payload with
    | none => []
    | some fields =>
      firstNonNil
        [lowerStr (normalizeTokenJ (fields.lookup "event".data)),
         lowerStr (subField fields "data".data "event".data),
         lowerStr (normalizeTokenJ (fields.lookup "type".data))]

/-- Embedding of the transient `StreamExtraction` record. -/
structure StreamExtraction where
  text : List Char
  role : List Char
  event : List Char

/-- Embedding of `extractStreamPiece`. -/
def extractStreamPiece (payload : Json) (sseEventName : List Char) : StreamExtraction :=
  ⟨extractStreamText payload, extractStreamRole payload, extractStreamEvent payload sseEventName⟩

/-- Keyword test `/(request|req|input|prompt|user)/i` of
`shouldUseAsAssistantChunk`. -/
def requestLikeEvent (e : List Char) : Bool :=
  containsCI "request".data e || containsCI "req".data e || containsCI "input".data e ||
  containsCI "prompt".data e || containsCI "user".data e

/-- Keyword test `/(completion|cmpl|assistant|reply|delta|token|output|answer)/i`. -/
def completionLikeEvent (e : List Char) : Bool :=
  containsCI "completion".data e || containsCI "cmpl".data e || containsCI "assistant".data e ||
  containsCI "reply".data e || containsCI "delta".data e || containsCI "token".data e ||
  containsCI "output".data e || containsCI "answer".data e

/-- Embedding of `shouldUseAsAssistantChunk` (kimi.ts lines 500–522,
identical in qwen.ts). -/
def shouldUseAsAssistantChunk (piece : StreamExtraction) : Bool :=
  if piece.role = "assistant".data || piece.role = "model".data || piece.role = "bot".data then
    true
  else if piece.role = "user".data || piece.role = "system".data then false
  else if piece.event = [] then false
  else if requestLikeEvent piece.event then false
  else if completionLikeEvent piece.event then true
  else false

/-! ## Stream reconstruction loops

Translated from `collectStreamContent` in kimi.ts (lines 594–679) and
qwen.ts (lines 479–581).  The byte/line buffering of the reader is
abstracted: the input is the stream's complete `\n`-separated lines (each
already classified as the source's line dispatch does) plus the optional
unterminated tail line. -/

/-- One trimmed SSE line as dispatched by the collect loops: blank line,
`event:` line, `data:` line with a successfully parsed JSON payload, the
`[DONE]`/empty sentinel, a `data:` line whose JSON failed to parse, or any
other line. -/
inductive SseLine where
  | blank
  | event (name : List Char)
  | dataJson (payload : Json)
  | dataDone
  | dataMalformed
  | other

/-- Mutable loop state of both collect loops. -/
structure StreamAcc where
  allText : List Char
  assistantText : List Char
  currentEventName : List Char
deriving Repr

/-- Shared handling of a parsed data payload: extract a piece and merge it
into the accumulators. -/
def applyPiece (acc : StreamAcc) (payload : Json) : StreamAcc :=
  let piece := extractStreamPiece payload acc.currentEventName
  if piece.text = [] then acc
  else
    { acc with
      allText := mergeStreamChunk acc.allText piece.text
      assistantText :=
        if shouldUseAsAssistantChunk piece then mergeStreamChunk acc.assistantText piece.text
        else acc.assistantText }

/-- Line loop of the Kimi `collectStreamContent`: no line can fail — parse
errors and any payload shape (including authorization-failure payloads)
are skipped or merged, never rethrown. -/
def kimiLoop (acc : StreamAcc) : List SseLine → StreamAcc
  | [] => acc
  | .blank :: rest => kimiLoop { acc with currentEventName := [] } rest
  | .event name :: rest => kimiLoop { acc with currentEventName := jsTrim name } rest
  | .dataJson payload :: rest => kimiLoop (applyPiece acc payload) rest
  | .dataDone :: rest => kimiLoop acc rest
  | .dataMalformed :: rest => kimiLoop acc rest
  | .other :: rest => kimiLoop acc rest

/-- Trailing-buffer handling of the Kimi collect (lines 658–675). -/
def kimiTail (acc : StreamAcc) : Option SseLine → StreamAcc
  | some (.dataJson payload) => applyPiece acc payload
  | _ => acc

/-- Embedding of the Kimi `collectStreamContent` (body-present path):
reconstruct, prefer the assistant accumulator, strip the prompt echo and
normalize. -/
def kimiCollectStreamContent (lines : List SseLine) (tail : Option SseLine)
    (prompt : List Char) : Except AppError (List Char) :=
  let acc := kimiTail (kimiLoop ⟨[], [], []⟩ lines) tail
  let primary := if jsTrim acc.assistantText ≠ [] then acc.assistantText else acc.allText
  .ok (normalizeSummaryMarkdown (stripPromptEcho primary prompt))

/-- Constant auth failure built by `ensureAuthError` in qwen.ts. -/
def qwenAuthError (status : Option Nat) : AppError :=
  { message := "登录状态失效，请重新连接 Qwen".data, code := .AUTH, status := status }

/-- Line loop of the Qwen `collectStreamContent`: identical to the Kimi
loop except that an authorization-failure payload short-circuits the whole
reconstruction with the AUTH error (qwen.ts lines 533–535). -/
def qwenLoop (acc : StreamAcc) : List SseLine → Except AppError StreamAcc
  | [] => .ok acc
  | .blank :: rest => qwenLoop { acc with currentEventName := [] } rest
  | .event name :: rest => qwenLoop { acc with currentEventName := jsTrim name } rest
  | .dataJson payload :: rest =>
    if isUnauthorizedPayload payload then .error (qwenAuthError (some 401))
    else qwenLoop (applyPiece acc payload) rest
  | .dataDone :: rest => qwenLoop acc rest
  | .dataMalformed :: rest => qwenLoop acc rest
  | .other :: rest => qwenLoop acc rest

/-- Trailing-buffer handling of the Qwen collect (lines 549–572): the
unauthorized check also applies to the tail payload; parse failures are
swallowed, AUTH errors are rethrown. -/
def qwenTail (acc : StreamAcc) : Option SseLine → Except AppError StreamAcc
  | some (.dataJson payload) =>
    if isUnauthorizedPayload payload then .error (qwenAuthError (some 401))
    else .ok (applyPiece acc payload)
  | _ => .ok acc

/-- Embedding of the Qwen `collectStreamContent` (body-present path). -/
def qwenCollectStreamContent (lines : List SseLine) (tail : Option SseLine)
    (prompt : List Char) : Except AppError (List Char) :=
  match qwenLoop ⟨[], [], []⟩ lines with
  | .error e => .error e
  | .ok acc0 =>
    match qwenTail acc0 tail with
    | .error e => .error e
    | .ok acc =>
      let primary := if jsTrim acc.assistantText ≠ [] then acc.assistantText else acc.allText
      let summary := normalizeSummaryMarkdown (normalizeMarkdownLayout (stripPromptEcho primary prompt))
      if summary = [] then
        .error { message := "Qwen 返回内容为空，请重试。".data, code := .RUNTIME }
      else .ok summary
/-! Line-level characterizations of the string passes of
`normalizeSummaryMarkdown`, used to analyse the pipeline one line at a
time. -/

/-- Strip the trailing run of spaces and tabs from a line: the per-line
effect of `replace(/[ \t]+\n/g, "\n")` on every line but the last. -/
def stripTrailST (l : List Char) : List Char :=
  (l.reverse.dropWhile isST).reverse

/-- A line the table state machine passes through verbatim while inside a
table: a pipe row or a separator row. -/
def qLine (l : List Char) : Bool :=
  isPipeRow l || isTableSeparator l

/-- Line-level effect of `replace(/[ \t]+\n/g, "\n")` on a joined line
list: every line but the last loses its trailing spaces and tabs. -/
def r1Lines : List (List Char) → List (List Char)
  | [] => []
  | [l] => [l]
  | l :: m :: rest => stripTrailST l :: r1Lines (m :: rest)

/-- Tail worker for the line-level effect of the `\n{3,}` collapse: at a
line boundary the boundary newline is deleted exactly when the next two
lines are empty and a further line follows. -/
def r4L : List (List Char) → List (List Char)
  | [] => []
  | [l] => [l]
  | l :: m :: rest =>
    if l = [] ∧ m = [] ∧ rest ≠ [] then r4L (m :: rest)
    else l :: r4L (m :: rest)

/-- Line-level effect of the `\n{3,}` collapse on a joined line list. -/
def r4Lines : List (List Char) → List (List Char)
  | [] => []
  | l :: rest => l :: r4L rest

/-- Line-level effect of the leading half of `trim()` on a joined line
list: leading whitespace-only lines are removed and the first remaining
line loses its leading whitespace. -/
def ltrimL : List (List Char) → List (List Char)
  | [] => []
  | l :: rest =>
    if l.all isJsWs ∧ rest ≠ [] then ltrimL rest
    else l.dropWhile isJsWs :: rest

/-- Line-level effect of the trailing half of `trim()` on a joined line
list: trailing whitespace-only lines are removed and the last remaining
line loses its trailing whitespace. -/
def rtrimL : List (List Char) → List (List Char)
  | [] => []
  | l :: rest =>
    if rest.all (fun m => m.all isJsWs) then [dropTrailWs l]
    else l :: rtrimL rest

/-- Line lists on which the table state machine of the line loop is the
identity: every line is either inert under `normalizePipeHeavyLine` or
belongs to a table block (a pipe-row header, a separator row and a run of
pipe or separator rows), which the machine passes through verbatim. -/
inductive GoodLines : List (List Char) → Prop
  | nil : GoodLines []
  | plain (l : List Char) (L : List (List Char)) :
      normalizePipeHeavyLine l = l → GoodLines L → GoodLines (l :: L)
  | table (h s : List Char) (rows L : List (List Char)) :
      isPipeRow h = true → isTableSeparator s = true →
      (∀ r ∈ rows, qLine r = true) → GoodLines L →
      GoodLines (h :: s :: (rows ++ L))
/-! ## Claim theorems -/

lemma normalizeCustomSystemPrompt_le (p : Option (List Char)) :
    (normalizeCustomSystemPrompt p).length ≤ CUSTOM_PROMPT_MAX_LENGTH := by
  simp only [normalizeCustomSystemPrompt]
  split
  · simp [List.length_take]
  · omega

/-- C9: every Settings value produced by settings sanitization (hence every
Settings returned by getSettings or saveSettings) has a customSystemPrompt
of at most CUSTOM_PROMPT_MAX_LENGTH = 2000 characters. -/
theorem sanitizeSettings_prompt_bounded (value : Option RawSettings) :
    (sanitizeSettings value).customSystemPrompt.length ≤ 2000 := by
  have h := normalizeCustomSystemPrompt_le (value.bind (·.customSystemPrompt))
  simpa [sanitizeSettings, CUSTOM_PROMPT_MAX_LENGTH] using h

/-- C8: resolveEffectiveTemplateId returns lastDefaultTemplateId when the
custom template is selected with a blank custom prompt, returns custom when
the custom prompt is non-blank, and returns any non-custom template id
unchanged. -/
theorem resolveEffectiveTemplateId_spec (s : Settings) :
    (s.summaryTemplateId = .custom → jsTrim s.customSystemPrompt = [] →
      resolveEffectiveTemplateId s = .defaultId s.lastDefaultTemplateId) ∧
    (s.summaryTemplateId = .custom → jsTrim s.customSystemPrompt ≠ [] →
      resolveEffectiveTemplateId s = .custom) ∧
    (∀ d, s.summaryTemplateId = .defaultId d → resolveEffectiveTemplateId s = .defaultId d) := by
  refine ⟨?_, ?_, ?_⟩
  · intro h1 h2
    simp [resolveEffectiveTemplateId, h1, h2]
  · intro h1 h2
    simp [resolveEffectiveTemplateId, h1, List.length_pos.mpr h2]
  · intro d hd
    simp [resolveEffectiveTemplateId, hd]

/-- Witness for C8 at a concrete Settings value with the custom template
selected and a whitespace-only custom prompt. -/
theorem resolveEffectiveTemplateId_spec_witness :
    resolveEffectiveTemplateId
      { provider := .openai, apiBaseUrl := [], apiKey := [], model := [],
        summaryTemplateId := .custom, lastDefaultTemplateId := .detailed_chapter,
        customSystemPrompt := "  ".data, themePreference := .system } =
      .defaultId .detailed_chapter :=
  (resolveEffectiveTemplateId_spec _).1 rfl (by decide)

/-- C2 counterexample: saving a whitespace-only refresh credential fails
with kind AUTH (AuthExpired), not VALIDATION (InvalidInput), for both the
Kimi and the Qwen store. -/
theorem saveTokens_blank_counterexample :
    (saveKimiTokens {} [] " ".data none).2 =
      .error { message := "Kimi 登录状态无效，请重新连接。".data, code := .AUTH, status := none } ∧
    (saveQwenTokens {} [] " ".data none).2 =
      .error { message := "Qwen 登录状态无效，请重新连接。".data, code := .AUTH, status := none } ∧
    AppErrorCode.AUTH ≠ AppErrorCode.VALIDATION := by
  refine ⟨rfl, rfl, by decide⟩

/-- C2 amended: for every credential whose refresh value is blank after
trimming, both token-store save operations fail with an error of kind AUTH
(AuthExpired) and leave the persisted store unchanged. -/
theorem saveTokens_blank_refresh (st : StorageState) (now value : List Char)
    (extraK extraQ : Option (List Char)) (h : jsTrim value = []) :
    saveKimiTokens st now value extraK =
      (st, .error { message := "Kimi 登录状态无效，请重新连接。".data, code := .AUTH, status := none }) ∧
    saveQwenTokens st now value extraQ =
      (st, .error { message := "Qwen 登录状态无效，请重新连接。".data, code := .AUTH, status := none }) := by
  constructor
  · simp [saveKimiTokens, h]
  · simp [saveQwenTokens, h]

/-- Witness for C2 at a concrete store and a whitespace-only credential. -/
theorem saveTokens_blank_refresh_witness :
    saveKimiTokens {} [] "\t ".data none =
      ({}, .error { message := "Kimi 登录状态无效，请重新连接。".data, code := .AUTH, status := none }) ∧
    saveQwenTokens {} [] "\t ".data none =
      ({}, .error { message := "Qwen 登录状态无效，请重新连接。".data, code := .AUTH, status := none }) :=
  saveTokens_blank_refresh {} [] "\t ".data none none (by decide)

/-- C4: folding mergeStreamChunk from the empty accumulator reconstructs
"hello world" from delta chunks, from cumulative chunks, and from
overlapping chunks. -/
theorem mergeStreamChunk_scenarios :
    List.foldl mergeStreamChunk [] ["hello ".data, "world".data] = "hello world".data ∧
    List.foldl mergeStreamChunk [] ["hello ".data, "hello world".data] = "hello world".data ∧
    List.foldl mergeStreamChunk [] ["hello wor".data, "world".data] = "hello world".data := by
  refine ⟨by decide, by decide, by decide⟩

/-- C6: on a file-first URL, a non-AUTH file-path failure falls back to the
text path exactly once and returns its outcome unchanged (no second
fallback), while an AUTH failure propagates with the text path never run. -/
theorem summarizeWithKimi_fallback (url : List Char) (e : AppError)
    (textOutcome : Except AppError (List Char)) (hurl : shouldPreferFileMode url = true) :
    (e.code ≠ .AUTH →
      summarizeWithKimi url (.error e) textOutcome =
        { result := textOutcome, filePathRuns := 1, textPathRuns := 1 }) ∧
    (e.code = .AUTH →
      summarizeWithKimi url (.error e) textOutcome =
        { result := .error e, filePathRuns := 1, textPathRuns := 0 }) := by
  constructor
  · intro h
    simp [summarizeWithKimi, hurl, h]
  · intro h
    simp [summarizeWithKimi, hurl, h]

/-- Witness for C6 at a PDF URL with a RUNTIME file-path failure and an
AUTH file-path failure. -/
theorem summarizeWithKimi_fallback_witness :
    summarizeWithKimi "https://example.test/paper.pdf".data
        (.error { message := [], code := .RUNTIME, status := none }) (.ok "ok".data) =
      { result := .ok "ok".data, filePathRuns := 1, textPathRuns := 1 } ∧
    summarizeWithKimi "https://example.test/paper.pdf".data
        (.error { message := [], code := .AUTH, status := none }) (.ok "ok".data) =
      { result := .error { message := [], code := .AUTH, status := none },
        filePathRuns := 1, textPathRuns := 0 } :=
  ⟨(summarizeWithKimi_fallback _ _ _ (by decide)).1 (by decide),
   (summarizeWithKimi_fallback _ _ _ (by decide)).2 rfl⟩
lemma normalizeBaseUrl_of_trim_nil (u : List Char) (h : jsTrim u = []) :
    normalizeBaseUrl u = [] := by
  simp [normalizeBaseUrl, h]

/-- C7 counterexample: under the ICU-style locale collation (on which "a"
collates before "B"), a successful fetchModels result is not sorted in
code-point lexicographic order — the body with ids ["B", "a"] yields
["a", "B"], whose code points are out of order. -/
theorem fetchModels_locale_order_counterexample :
    fetchModels icuLikeLe "https://api.test".data "k".data
        (.resp 200 (ModelListBody.mk (some [some "B".data, some "a".data]) none)) =
      .ok ["a".data, "B".data] ∧
    ¬ List.Sorted (· ≤ ·) ["a".data, "B".data] ∧
    icuLikeLe "a".data "B".data = true ∧ icuLikeLe "B".data "a".data = false := by
  refine ⟨rfl, ?_, by decide, by decide⟩
  intro hs
  have h := List.rel_of_sorted_cons hs "B".data (List.mem_cons_self _ _)
  revert h
  decide

/-- C7 amended: fetchModels fails with kind VALIDATION (InvalidInput) when
the base URL or API key is blank after trimming; a successful result is a
permutation of the non-blank trimmed identifiers of the response body and,
whenever the runtime locale's collation is total and transitive, is sorted
by that collation (the source sorts with localeCompare, so the order is
the locale's, not necessarily code-point lexicographic); an empty list
after filtering fails with kind RUNTIME (InternalFault). -/
theorem fetchModels_spec (localeLe : List Char → List Char → Bool)
    (apiBaseUrl apiKey : List Char) :
    (∀ outcome, jsTrim apiBaseUrl = [] ∨ jsTrim apiKey = [] →
      ∃ e, fetchModels localeLe apiBaseUrl apiKey outcome = .error e ∧
        e.code = .VALIDATION) ∧
    (∀ status body l,
      fetchModels localeLe apiBaseUrl apiKey (.resp status body) = .ok l →
      l.Perm (((body.data.getD []).map (fun item => jsTrim (item.getD []))).filter
        (fun id => 0 < id.length)) ∧
      ((∀ a b, localeLe a b = true ∨ localeLe b a = true) →
        (∀ a b c, localeLe a b = true → localeLe b c = true → localeLe a c = true) →
        List.Sorted (fun a b => localeLe a b = true) l)) ∧
    (∀ status body, normalizeBaseUrl apiBaseUrl ≠ [] → jsTrim apiKey ≠ [] →
      200 ≤ status → status ≤ 299 →
      ((body.data.getD []).map (fun item => jsTrim (item.getD []))).filter
          (fun id => 0 < id.length) = [] →
      fetchModels localeLe apiBaseUrl apiKey (.resp status body) =
        .error { message := "模型列表为空，请手动输入模型名称。".data, code := .RUNTIME,
                 status := none }) := by
  refine ⟨?_, ?_, ?_⟩
  · intro outcome h
    by_cases hb : normalizeBaseUrl apiBaseUrl = []
    · refine ⟨{ message := "请先填写 API 地址。".data, code := .VALIDATION, status := none },
        ?_, rfl⟩
      simp [fetchModels, hb]
    · have hk : jsTrim apiKey = [] := by
        rcases h with h | h
        · exact absurd (normalizeBaseUrl_of_trim_nil _ h) hb
        · exact h
      refine ⟨{ message := "请先填写 API Key。".data, code := .VALIDATION, status := none },
        ?_, rfl⟩
      simp [fetchModels, hb, hk]
  · intro status body l h
    simp only [fetchModels] at h
    split_ifs at h with hb hk hs hemp <;> simp at h
    subst h
    refine ⟨List.perm_insertionSort _ _, ?_⟩
    intro htot htr
    letI : IsTotal (List Char) (fun a b => localeLe a b = true) := ⟨htot⟩
    letI : IsTrans (List Char) (fun a b => localeLe a b = true) := ⟨htr⟩
    exact List.sorted_insertionSort _ _
  · intro status body hb hk h200 h299 hfil
    simp [fetchModels, hb, hk, h200, h299, hfil]

/-- Witness for C7 at the code-point collation: a blank base URL yields
VALIDATION, a two-id body yields a sorted permutation of the trimmed ids,
and an all-blank body yields RUNTIME. -/
theorem fetchModels_spec_witness :
    (∃ e, fetchModels cpLe " ".data "key".data .aborted = .error e ∧
      e.code = .VALIDATION) ∧
    ((["gpt-4.1-mini".data, "gpt-4o".data]).Perm
        ((((ModelListBody.mk (some [some "gpt-4o".data, some "gpt-4.1-mini".data]) none).data.getD
            []).map (fun item => jsTrim (item.getD []))).filter (fun id => 0 < id.length)) ∧
      List.Sorted (fun a b => cpLe a b = true) ["gpt-4.1-mini".data, "gpt-4o".data]) ∧
    fetchModels cpLe "https://api.test".data "k".data
        (.resp 200 (ModelListBody.mk (some [some "  ".data]) none)) =
      .error { message := "模型列表为空，请手动输入模型名称。".data, code := .RUNTIME,
               status := none } :=
  ⟨(fetchModels_spec cpLe " ".data "key".data).1 .aborted (Or.inl (by decide)),
   (fetchModels_spec cpLe "https://api.test".data "k".data).2.1 200
     (ModelListBody.mk (some [some "gpt-4o".data, some "gpt-4.1-mini".data]) none)
     ["gpt-4.1-mini".data, "gpt-4o".data] (by rfl)
     |>.imp id (fun hsor => hsor
       (fun a b => by
         simp only [cpLe, decide_eq_true_eq]
         exact le_total a b)
       (fun a b c hab hbc => by
         simp only [cpLe, decide_eq_true_eq] at hab hbc ⊢
         exact le_trans hab hbc)),
   (fetchModels_spec cpLe "https://api.test".data "k".data).2.2 200
     (ModelListBody.mk (some [some "  ".data]) none)
     (by decide) (by decide) (by decide) (by decide) (by decide)⟩

lemma requestWithAuthAfterInit_bounds (now : List Char) (refreshes : Nat)
    (saved : List KimiTokens) (nr : RefreshOutcome) (e1 e2 : ExecOutcome) :
    (requestWithAuthAfterInit now refreshes saved nr e1 e2).upstreamCalls ≤ 2 ∧
    (requestWithAuthAfterInit now refreshes saved nr e1 e2).refreshCalls ≤ refreshes + 1 := by
  cases e1 with
  | threw e => simp [requestWithAuthAfterInit]
  | status s =>
    cases nr with
    | threw e =>
      simp only [requestWithAuthAfterInit]
      split_ifs <;> simp
    | ok acc ref =>
      cases e2 with
      | threw e =>
        simp only [requestWithAuthAfterInit]
        split_ifs <;> simp
      | status s2 =>
        simp only [requestWithAuthAfterInit]
        split_ifs <;> simp

/-- C1 amended: every invocation of requestWithAuth issues at most 2
upstream requests and at most 2 token refreshes, and at most 1 token
refresh when a cached access credential is present. -/
theorem requestWithAuth_bounds (tokens : KimiTokens) (now : List Char)
    (ra rb : RefreshOutcome) (ea eb : ExecOutcome) :
    (requestWithAuth tokens now ra rb ea eb).upstreamCalls ≤ 2 ∧
    (requestWithAuth tokens now ra rb ea eb).refreshCalls ≤ 2 ∧
    (tokens.accessToken ≠ none → (requestWithAuth tokens now ra rb ea eb).refreshCalls ≤ 1) := by
  obtain ⟨rt, atk, upd⟩ := tokens
  cases atk with
  | some a =>
    have h := requestWithAuthAfterInit_bounds now 0 [] ra ea eb
    exact ⟨h.1, le_trans h.2 (by omega), fun _ => h.2⟩
  | none =>
    cases ra with
    | threw e =>
      refine ⟨?_, ?_, ?_⟩ <;> simp only [requestWithAuth] <;> split_ifs <;> simp
    | ok acc ref =>
      have h := requestWithAuthAfterInit_bounds now 1 [⟨ref, some acc, now⟩] rb ea eb
      exact ⟨h.1, h.2, fun hcontra => absurd rfl hcontra⟩

/-- C1 counterexample: with no cached access credential and a first
upstream 401, a single invocation issues two token-refresh calls. -/
theorem requestWithAuth_two_refreshes_counterexample :
    (requestWithAuth ⟨"r".data, none, "t".data⟩ "t".data (.ok "a".data "r".data)
        (.ok "a2".data "r2".data) (.status 401) (.status 200)).refreshCalls = 2 ∧
    ¬ ((requestWithAuth ⟨"r".data, none, "t".data⟩ "t".data (.ok "a".data "r".data)
        (.ok "a2".data "r2".data) (.status 401) (.status 200)).refreshCalls ≤ 1) ∧
    (requestWithAuth ⟨"r".data, none, "t".data⟩ "t".data (.ok "a".data "r".data)
        (.ok "a2".data "r2".data) (.status 401) (.status 200)).upstreamCalls = 2 := by
  refine ⟨by decide, by decide, by decide⟩

/-- Witness for C1 with a cached access credential present. -/
theorem requestWithAuth_bounds_witness :
    (requestWithAuth ⟨"r".data, some "a".data, "t".data⟩ "t".data (.ok "x".data "y".data)
        (.ok "x".data "y".data) (.status 401) (.status 401)).refreshCalls ≤ 1 :=
  (requestWithAuth_bounds ⟨"r".data, some "a".data, "t".data⟩ "t".data (.ok "x".data "y".data)
    (.ok "x".data "y".data) (.status 401) (.status 401)).2.2 (by decide)

lemma findOverlapAux_spec (c n : List Char) :
    ∀ k, findOverlapAux c n k = 0 ∨
      takeLast (findOverlapAux c n k) c = n.take (findOverlapAux c n k) := by
  intro k
  induction k with
  | zero => exact Or.inl rfl
  | succ k ih =>
    by_cases h : takeLast (k + 1) c = n.take (k + 1)
    · have he : findOverlapAux c n (k + 1) = k + 1 := by simp [findOverlapAux, h]
      rw [he]
      exact Or.inr h
    · have he : findOverlapAux c n (k + 1) = findOverlapAux c n k := by
        simp [findOverlapAux, h]
      rw [he]
      exact ih

/-- C10: the overlap-aware merge keeps both the accumulated text and the
new chunk as contiguous substrings of its result, for all inputs. -/
theorem mergeStreamChunk_contains (current next : List Char) :
    current <:+: mergeStreamChunk current next ∧ next <:+: mergeStreamChunk current next := by
  unfold mergeStreamChunk
  by_cases h1 : next = []
  · subst h1
    simp only [if_pos rfl]
    exact ⟨⟨[], [], by simp⟩, ⟨[], current, by simp⟩⟩
  · rw [if_neg h1]
    by_cases h2 : current = []
    · subst h2
      simp only [if_pos rfl]
      exact ⟨⟨[], next, by simp⟩, ⟨[], [], by simp⟩⟩
    · rw [if_neg h2]
      by_cases h3 : next = current
      · subst h3
        simp only [if_pos rfl]
        exact ⟨⟨[], [], by simp⟩, ⟨[], [], by simp⟩⟩
      · rw [if_neg h3]
        by_cases h4 : current <+: next
        · rw [if_pos h4]
          obtain ⟨t, ht⟩ := h4
          exact ⟨⟨[], t, by simp [ht]⟩, ⟨[], [], by simp⟩⟩
        · rw [if_neg h4]
          by_cases h5 : next <+: current
          · rw [if_pos h5]
            obtain ⟨t, ht⟩ := h5
            exact ⟨⟨[], [], by simp⟩, ⟨[], t, by simp [ht]⟩⟩
          · rw [if_neg h5]
            show current <:+: (if findOverlapSuffixPrefixLen current next > 0 then
                  current ++ next.drop (findOverlapSuffixPrefixLen current next)
                else current ++ next) ∧
              next <:+: (if findOverlapSuffixPrefixLen current next > 0 then
                  current ++ next.drop (findOverlapSuffixPrefixLen current next)
                else current ++ next)
            set ov := findOverlapSuffixPrefixLen current next with hove
            by_cases h6 : ov > 0
            · rw [if_pos h6]
              have hov : takeLast ov current = next.take ov := by
                rcases findOverlapAux_spec current next (min current.length next.length) with
                  h0 | hok
                · exact absurd (show ov = 0 from hove.trans h0) (by omega)
                · exact (show takeLast ov current = next.take ov from by rw [hove]; exact hok)
              refine ⟨⟨[], next.drop ov, by simp⟩,
                ⟨current.take (current.length - ov), [], ?_⟩⟩
              calc
                current.take (current.length - ov) ++ next ++ [] =
                    current.take (current.length - ov) ++ next := by simp
                _ = current.take (current.length - ov) ++ (next.take ov ++ next.drop ov) := by
                    rw [List.take_append_drop]
                _ = current.take (current.length - ov) ++ (takeLast ov current ++ next.drop ov) := by
                    rw [hov]
                _ = (current.take (current.length - ov) ++ takeLast ov current) ++
                      next.drop ov := by rw [List.append_assoc]
                _ = current ++ next.drop ov := by
                    rw [show current.take (current.length - ov) ++ takeLast ov current =
                        current from by
                      simpa [takeLast] using List.take_append_drop (current.length - ov) current]
            · rw [if_neg h6]
              exact ⟨⟨[], next, by simp⟩, ⟨current, [], by simp⟩⟩
lemma qwenLoop_error_unique (lines : List SseLine) :
    ∀ (acc : StreamAcc) (e : AppError),
      qwenLoop acc lines = .error e → e = qwenAuthError (some 401) := by
  induction lines with
  | nil =>
    intro acc e h
    simp [qwenLoop] at h
  | cons line rest ih =>
    intro acc e h
    cases line with
    | blank => exact ih _ _ h
    | event name => exact ih _ _ h
    | dataDone => exact ih _ _ h
    | dataMalformed => exact ih _ _ h
    | other => exact ih _ _ h
    | dataJson p =>
      by_cases hu : isUnauthorizedPayload p = true
      · rw [show qwenLoop acc (SseLine.dataJson p :: rest) =
            .error (qwenAuthError (some 401)) from by simp [qwenLoop, hu]] at h
        exact (Except.error.inj h).symm
      · rw [show qwenLoop acc (SseLine.dataJson p :: rest) =
            qwenLoop (applyPiece acc p) rest from by simp [qwenLoop, hu]] at h
        exact ih _ _ h

lemma qwenLoop_auth (lines : List SseLine) :
    ∀ (acc : StreamAcc) (p : Json), SseLine.dataJson p ∈ lines →
      isUnauthorizedPayload p = true →
      qwenLoop acc lines = .error (qwenAuthError (some 401)) := by
  induction lines with
  | nil =>
    intro acc p hmem
    simp at hmem
  | cons line rest ih =>
    intro acc p hmem hu
    rcases List.mem_cons.mp hmem with heq | hmem2
    · subst heq
      simp [qwenLoop, hu]
    · cases line with
      | blank => exact ih _ _ hmem2 hu
      | event name => exact ih _ _ hmem2 hu
      | dataDone => exact ih _ _ hmem2 hu
      | dataMalformed => exact ih _ _ hmem2 hu
      | other => exact ih _ _ hmem2 hu
      | dataJson q =>
        by_cases hq : isUnauthorizedPayload q = true
        · simp [qwenLoop, hq]
        · rw [show qwenLoop acc (SseLine.dataJson q :: rest) =
              qwenLoop (applyPiece acc q) rest from by simp [qwenLoop, hq]]
          exact ih _ _ hmem2 hu

/-- C3 amended: the Qwen stream reconstruction aborts with the AUTH
(AuthExpired) error as soon as any decoded data payload — in the line loop
or in the trailing buffer — has the authorization-failure shape, while the
Kimi stream reconstruction has no such check and always returns normally. -/
theorem qwen_stream_auth_abort (lines : List SseLine) (tail : Option SseLine)
    (prompt : List Char) :
    ((∃ p, SseLine.dataJson p ∈ lines ∧ isUnauthorizedPayload p = true) ∨
      (∃ p, tail = some (.dataJson p) ∧ isUnauthorizedPayload p = true) →
      qwenCollectStreamContent lines tail prompt = .error (qwenAuthError (some 401))) ∧
    (∃ t, kimiCollectStreamContent lines tail prompt = .ok t) := by
  constructor
  · intro h
    unfold qwenCollectStreamContent
    rcases h with ⟨p, hmem, hu⟩ | ⟨p, htail, hu⟩
    · rw [qwenLoop_auth lines _ p hmem hu]
    · cases hq : qwenLoop ⟨[], [], []⟩ lines with
      | error e => rw [qwenLoop_error_unique lines _ e hq]
      | ok acc0 =>
        subst htail
        simp [qwenTail, hu]
  · exact ⟨_, rfl⟩

/-- Witness for C3 at a one-line stream carrying an unauthorized payload. -/
theorem qwen_stream_auth_abort_witness :
    qwenCollectStreamContent
        [SseLine.dataJson (.obj [("code".data, Json.str "unauthorized".data)])] none [] =
      .error (qwenAuthError (some 401)) :=
  (qwen_stream_auth_abort _ _ _).1
    (Or.inl ⟨.obj [("code".data, Json.str "unauthorized".data)],
      List.mem_cons_self _ _, by decide⟩)

/-- C3 counterexample: the Kimi stream reconstruction does not abort on an
authorization-failure payload inside a 200-status stream — it skips it and
keeps accumulating text. -/
theorem kimiCollect_auth_payload_counterexample :
    isUnauthorizedPayload (.obj [("code".data, Json.str "unauthorized".data)]) = true ∧
    kimiCollectStreamContent
        [SseLine.dataJson (.obj [("text".data, Json.str "hi".data)]),
         SseLine.dataJson (.obj [("code".data, Json.str "unauthorized".data)])] none [] =
      .ok "hi".data := by
  refine ⟨by decide, ?_⟩
  have hacc : kimiTail (kimiLoop ⟨[], [], []⟩
      [SseLine.dataJson (.obj [("text".data, Json.str "hi".data)]),
       SseLine.dataJson (.obj [("code".data, Json.str "unauthorized".data)])]) none =
      (⟨"hi".data, [], []⟩ : StreamAcc) := by
    rfl
  have hstrip : stripPromptEcho "hi".data [] = "hi".data := by decide
  have hnorm : normalizeSummaryMarkdown "hi".data = "hi".data := by
    simp [normalizeSummaryMarkdown, jsTrim, dropTrailWs, isJsWs, stripBOM, normCR,
          splitNl, splitOnChar, joinNl, joinWith, stage1, normalizeHeadingSpacing,
          countLeading, isPipeRow, isTableSeparator, normalizePipeHeavyLine,
          isSepCellStr, r1, isST, r2, parseHashWs, r3, r3Aux, parseHeadingR3,
          lookaheadExcluded, r4]
  unfold kimiCollectStreamContent
  rw [hacc]
  simp [hstrip, hnorm, jsTrim, dropTrailWs]

/-- C5 counterexample: normalizeSummaryMarkdown is not idempotent — on the
input consisting of four spaces, a heading marker and a letter, the first
pass exposes the heading at the start of the string and the second pass
then inserts a space after the marker. -/
theorem normalizeSummaryMarkdown_not_idempotent :
    normalizeSummaryMarkdown (normalizeSummaryMarkdown "    #a".data) ≠
      normalizeSummaryMarkdown "    #a".data := by
  have h1 : normalizeSummaryMarkdown "    #a".data = "#a".data := by
    simp [normalizeSummaryMarkdown, jsTrim, dropTrailWs, isJsWs, stripBOM, normCR,
          splitNl, splitOnChar, joinNl, joinWith, stage1, normalizeHeadingSpacing,
          countLeading, isPipeRow, isTableSeparator, normalizePipeHeavyLine,
          isSepCellStr, r1, isST, r2, parseHashWs, r3, r3Aux, parseHeadingR3,
          lookaheadExcluded, r4]
  have h2 : normalizeSummaryMarkdown "#a".data = "# a".data := by
    simp [normalizeSummaryMarkdown, jsTrim, dropTrailWs, isJsWs, stripBOM, normCR,
          splitNl, splitOnChar, joinNl, joinWith, stage1, normalizeHeadingSpacing,
          countLeading, isPipeRow, isTableSeparator, normalizePipeHeavyLine,
          isSepCellStr, r1, isST, r2, parseHashWs, r3, r3Aux, parseHeadingR3,
          lookaheadExcluded, r4]
  rw [h1, h2]
  decide
/-! ## Support lemmas for the markdown idempotence analysis -/

lemma splitOnChar_ne_nil (sep : Char) (s : List Char) : splitOnChar sep s ≠ [] := by
  cases s with
  | nil => simp [splitOnChar]
  | cons c rest =>
    by_cases h : c = sep
    · simp [splitOnChar, h]
    · simp only [splitOnChar, if_neg h]
      cases hs : splitOnChar sep rest with
      | nil => exact absurd hs (splitOnChar_ne_nil sep rest)
      | cons l ls => simp

lemma joinWith_splitOnChar (sep : Char) (s : List Char) :
    joinWith sep (splitOnChar sep s) = s := by
  induction s with
  | nil => simp [splitOnChar, joinWith]
  | cons c rest ih =>
    by_cases h : c = sep
    · subst h
      rw [show splitOnChar c (c :: rest) = [] :: splitOnChar c rest from by
        simp [splitOnChar]]
      rw [show joinWith c ([] :: splitOnChar c rest) =
          [] ++ (if (splitOnChar c rest).isEmpty then [] else c :: joinWith c (splitOnChar c rest))
          from rfl]
      rw [if_neg (by simpa [List.isEmpty_iff] using splitOnChar_ne_nil c rest)]
      simp [ih]
    · rw [show splitOnChar sep (c :: rest) =
          (match splitOnChar sep rest with
           | l :: ls => (c :: l) :: ls
           | [] => [[c]]) from by simp [splitOnChar, h]]
      cases hs : splitOnChar sep rest with
      | nil => exact absurd hs (splitOnChar_ne_nil sep rest)
      | cons l ls =>
        rw [show (match (l :: ls : List (List Char)) with
             | l :: ls => (c :: l) :: ls
             | [] => [[c]]) = (c :: l) :: ls from rfl]
        have hjoin : joinWith sep (l :: ls) = rest := by rw [← hs, ih]
        rw [show joinWith sep ((c :: l) :: ls) =
            (c :: l) ++ (if ls.isEmpty then [] else sep :: joinWith sep ls) from rfl]
        rw [show joinWith sep (l :: ls) =
            l ++ (if ls.isEmpty then [] else sep :: joinWith sep ls) from rfl] at hjoin
        simpa using hjoin

lemma joinNl_splitNl (s : List Char) : joinNl (splitNl s) = s :=
  joinWith_splitOnChar '\n' s

lemma splitOnChar_mem (sep : Char) (s : List Char) :
    ∀ l ∈ splitOnChar sep s, ∀ c ∈ l, c ∈ s := by
  induction s with
  | nil =>
    intro l hl c hc
    simp [splitOnChar] at hl
    subst hl
    simp at hc
  | cons a rest ih =>
    intro l hl c hc
    by_cases h : a = sep
    · rw [show splitOnChar sep (a :: rest) = [] :: splitOnChar sep rest from by
        simp [splitOnChar, h]] at hl
      rcases List.mem_cons.mp hl with rfl | hl2
      · simp at hc
      · exact List.mem_cons.mpr (Or.inr (ih l hl2 c hc))
    · rw [show splitOnChar sep (a :: rest) =
          (match splitOnChar sep rest with
           | l :: ls => (a :: l) :: ls
           | [] => [[a]]) from by simp [splitOnChar, h]] at hl
      cases hs : splitOnChar sep rest with
      | nil => exact absurd hs (splitOnChar_ne_nil sep rest)
      | cons l0 ls =>
        rw [hs] at hl
        rcases List.mem_cons.mp hl with rfl | hl2
        · rcases List.mem_cons.mp hc with rfl | hc2
          · exact List.mem_cons.mpr (Or.inl rfl)
          · exact List.mem_cons.mpr (Or.inr (ih l0 (by rw [hs]; exact List.mem_cons_self _ _) c hc2))
        · exact List.mem_cons.mpr (Or.inr (ih l (by rw [hs]; exact List.mem_cons.mpr (Or.inr hl2)) c hc))

lemma containsSub_cons (pat : List Char) (c : Char) (rest : List Char) :
    containsSub pat rest = true → containsSub pat (c :: rest) = true := by
  intro h
  simp only [containsSub]
  rw [h]
  simp

lemma containsSub_cons_false (pat : List Char) (c : Char) (rest : List Char) :
    containsSub pat (c :: rest) = false → containsSub pat rest = false := by
  intro h
  by_contra hc
  rw [containsSub_cons pat c rest (by revert hc; cases containsSub pat rest <;> simp)] at h
  cases h

lemma containsSub_append_left (pat t b : List Char) (h : containsSub pat t = true) :
    containsSub pat (t ++ b) = true := by
  induction t with
  | nil =>
    simp only [containsSub] at h
    have : pat = [] := by simpa using h
    subst this
    cases b with
    | nil => simp [containsSub]
    | cons x xs => simp [containsSub, List.isPrefixOf]
  | cons c rest ih =>
    simp only [containsSub, Bool.or_eq_true] at h
    rcases h with h | h
    · have hpre : pat <+: c :: rest := List.isPrefixOf_iff_prefix.mp h
      have : pat <+: (c :: rest) ++ b := hpre.trans ⟨b, rfl⟩
      simp only [List.cons_append, containsSub, Bool.or_eq_true]
      exact Or.inl (List.isPrefixOf_iff_prefix.mpr this)
    · simp only [List.cons_append, containsSub, Bool.or_eq_true]
      exact Or.inr (ih h)

lemma containsSub_append_right (pat a y : List Char) (h : containsSub pat y = true) :
    containsSub pat (a ++ y) = true := by
  induction a with
  | nil => simpa using h
  | cons c rest ih => exact containsSub_cons pat c (rest ++ y) ih

lemma containsSub_of_infx (pat t s : List Char) (hinf : t <:+: s)
    (h : containsSub pat t = true) : containsSub pat s = true := by
  obtain ⟨a, b, rfl⟩ := hinf
  rw [List.append_assoc]
  exact containsSub_append_right pat a (t ++ b) (containsSub_append_left pat t b h)

lemma containsSub_false_of_infx (pat t s : List Char) (hinf : t <:+: s)
    (h : containsSub pat s = false) : containsSub pat t = false := by
  by_contra hc
  rw [containsSub_of_infx pat t s hinf (by revert hc; cases containsSub pat t <;> simp)] at h
  cases h
lemma dropTrailWs_isPre (l : List Char) : dropTrailWs l <+: l := by
  refine ⟨(l.reverse.takeWhile isJsWs).reverse, ?_⟩
  rw [show dropTrailWs l = (l.reverse.dropWhile isJsWs).reverse from rfl]
  rw [← List.reverse_append, List.takeWhile_append_dropWhile, List.reverse_reverse]

lemma jsTrim_infx (s : List Char) : jsTrim s <:+: s := by
  obtain ⟨t, ht⟩ := dropTrailWs_isPre (s.dropWhile isJsWs)
  obtain ⟨a, ha⟩ := List.dropWhile_suffix (l := s) isJsWs
  refine ⟨a, t, ?_⟩
  rw [List.append_assoc, show jsTrim s = dropTrailWs (s.dropWhile isJsWs) from rfl, ht, ha]

lemma infx_subset (t s : List Char) (h : t <:+: s) : ∀ c ∈ t, c ∈ s := by
  obtain ⟨a, b, rfl⟩ := h
  intro c hc
  simp [hc]

lemma head_dropWhile_not (p : Char → Bool) (s : List Char) (c : Char)
    (h : (s.dropWhile p).head? = some c) : p c = false := by
  induction s with
  | nil => simp [List.dropWhile] at h
  | cons a rest ih =>
    by_cases hp : p a
    · rw [show (a :: rest).dropWhile p = rest.dropWhile p from by
        simp [List.dropWhile, hp]] at h
      exact ih h
    · rw [show (a :: rest).dropWhile p = a :: rest from by
        simp [List.dropWhile, hp]] at h
      simp at h
      subst h
      simpa using hp

lemma dropWhile_of_head_not (p : Char → Bool) (s : List Char)
    (h : ∀ c, s.head? = some c → p c = false) : s.dropWhile p = s := by
  cases s with
  | nil => simp
  | cons a rest => simp [List.dropWhile, h a rfl]

lemma jsTrim_head_not_ws (s : List Char) (c : Char) (h : (jsTrim s).head? = some c) :
    isJsWs c = false := by
  obtain ⟨t, ht⟩ := dropTrailWs_isPre (s.dropWhile isJsWs)
  have hh : (s.dropWhile isJsWs).head? = some c := by
    rw [← ht]
    cases hj : jsTrim s with
    | nil => rw [hj] at h; simp at h
    | cons x xs =>
      rw [hj] at h
      simp at h
      subst h
      rw [show jsTrim s = dropTrailWs (s.dropWhile isJsWs) from rfl] at hj
      rw [hj]
      simp
  exact head_dropWhile_not isJsWs s c hh

lemma jsTrim_last_not_ws (s : List Char) (c : Char) (h : (jsTrim s).getLast? = some c) :
    isJsWs c = false := by
  have hh : ((s.dropWhile isJsWs).reverse.dropWhile isJsWs).head? = some c := by
    have hr : (jsTrim s).reverse.head? = some c := by
      rw [List.head?_reverse]
      exact h
    rw [show jsTrim s = ((s.dropWhile isJsWs).reverse.dropWhile isJsWs).reverse from rfl]
      at hr
    simpa using hr
  exact head_dropWhile_not isJsWs _ c hh

lemma dropWhile_jsTrim (s : List Char) : (jsTrim s).dropWhile isJsWs = jsTrim s :=
  dropWhile_of_head_not isJsWs (jsTrim s) (fun c hc => jsTrim_head_not_ws s c hc)

lemma dropTrailWs_of_last (s : List Char)
    (h : ∀ c, s.getLast? = some c → isJsWs c = false) : dropTrailWs s = s := by
  rw [show dropTrailWs s = (s.reverse.dropWhile isJsWs).reverse from rfl]
  rw [dropWhile_of_head_not isJsWs s.reverse
    (fun c hc => h c (by rwa [List.head?_reverse] at hc))]
  simp

lemma jsTrim_idem (s : List Char) : jsTrim (jsTrim s) = jsTrim s := by
  rw [show jsTrim (jsTrim s) = dropTrailWs ((jsTrim s).dropWhile isJsWs) from rfl]
  rw [dropWhile_jsTrim]
  exact dropTrailWs_of_last _ (fun c hc => jsTrim_last_not_ws s c hc)

lemma normCR_no_cr (s : List Char) : '\r' ∉ normCR s := by
  induction s with
  | nil => simp [normCR]
  | cons c rest ih =>
    by_cases hc : c = '\r'
    · subst hc
      cases rest with
      | nil => simp [normCR]
      | cons d rest2 =>
        by_cases hd : d = '\n'
        · subst hd
          rw [show normCR ('\r' :: '\n' :: rest2) = '\n' :: normCR rest2 from rfl]
          intro hmem
          rcases List.mem_cons.mp hmem with h | h
          · cases h
          · exact ih (by
              rw [show normCR ('\n' :: rest2) = '\n' :: normCR rest2 from by
                rw [normCR.eq_def]; simp]
              exact List.mem_cons.mpr (Or.inr h))
        · rw [show normCR ('\r' :: d :: rest2) = '\n' :: normCR (d :: rest2) from by
            rw [normCR.eq_def]; simp [hd]]
          intro hmem
          rcases List.mem_cons.mp hmem with h | h
          · cases h
          · exact ih h
    · rw [show normCR (c :: rest) = c :: normCR rest from by rw [normCR.eq_def]; simp [hc]]
      intro hmem
      rcases List.mem_cons.mp hmem with h | h
      · exact hc h.symm
      · exact ih h

lemma normCR_id (s : List Char) (h : '\r' ∉ s) : normCR s = s := by
  induction s with
  | nil => simp [normCR]
  | cons c rest ih =>
    have hc : c ≠ '\r' := fun he => h (he ▸ List.mem_cons_self _ _)
    rw [show normCR (c :: rest) = c :: normCR rest from by rw [normCR.eq_def]; simp [hc]]
    rw [ih (fun hm => h (List.mem_cons.mpr (Or.inr hm)))]

lemma mem_normCR (s : List Char) (c : Char) (hc : c ≠ '\n') (h : c ∈ normCR s) : c ∈ s := by
  induction s with
  | nil => simp [normCR] at h
  | cons a rest ih =>
    by_cases ha : a = '\r'
    · subst ha
      cases rest with
      | nil =>
        rw [show normCR ['\r'] = ['\n'] from rfl] at h
        simp at h
        exact absurd h hc
      | cons d rest2 =>
        by_cases hd : d = '\n'
        · subst hd
          rw [show normCR ('\r' :: '\n' :: rest2) = '\n' :: normCR rest2 from rfl] at h
          rcases List.mem_cons.mp h with h1 | h1
          · exact absurd h1 hc
          · have : c ∈ '\n' :: rest2 := by
              have hcr : c ∈ normCR ('\n' :: rest2) := by
                rw [show normCR ('\n' :: rest2) = '\n' :: normCR rest2 from by
                rw [normCR.eq_def]; simp]
                exact List.mem_cons.mpr (Or.inr h1)
              exact ih hcr
            rcases List.mem_cons.mp this with h2 | h2
            · exact absurd h2 hc
            · exact List.mem_cons.mpr (Or.inr (List.mem_cons.mpr (Or.inr h2)))
        · rw [show normCR ('\r' :: d :: rest2) = '\n' :: normCR (d :: rest2) from by
            rw [normCR.eq_def]; simp [hd]] at h
          rcases List.mem_cons.mp h with h1 | h1
          · exact absurd h1 hc
          · exact List.mem_cons.mpr (Or.inr (ih h1))
    · rw [show normCR (a :: rest) = a :: normCR rest from by rw [normCR.eq_def]; simp [ha]] at h
      rcases List.mem_cons.mp h with h1 | h1
      · exact List.mem_cons.mpr (Or.inl h1)
      · exact List.mem_cons.mpr (Or.inr (ih h1))

lemma stripBOM_id (s : List Char) (h : ∀ c, s.head? = some c → c.toNat ≠ 0xfeff) :
    stripBOM s = s := by
  cases s with
  | nil => rfl
  | cons c rest => simp [stripBOM, h c rfl]

lemma stripBOM_sublist (s : List Char) : (stripBOM s).Sublist s := by
  cases s with
  | nil => simp [stripBOM]
  | cons c rest =>
    by_cases h : c.toNat = 0xfeff
    · rw [show stripBOM (c :: rest) = rest from by simp [stripBOM, h]]
      exact List.sublist_cons_self c rest
    · rw [show stripBOM (c :: rest) = c :: rest from by simp [stripBOM, h]]

lemma r1_sublist (s : List Char) : (r1 s).Sublist s := by
  induction s with
  | nil => simp [r1]
  | cons c rest ih =>
    simp only [r1]
    split
    · exact ih.trans (List.sublist_cons_self c rest)
    · exact ih.cons₂ c

lemma r4_sublist (s : List Char) : (r4 s).Sublist s := by
  induction s with
  | nil => simp [r4]
  | cons c rest ih =>
    simp only [r4]
    split
    · exact ih.trans (List.sublist_cons_self c rest)
    · exact ih.cons₂ c
lemma countLeading_zero (p : Char → Bool) (s : List Char) (h : ∀ c ∈ s, p c = false) :
    countLeading p s = 0 := by
  cases s with
  | nil => rfl
  | cons a rest => simp [countLeading, h a (List.mem_cons_self _ _)]

lemma nhs_id (l : List Char) (h : '#' ∉ l) : normalizeHeadingSpacing l = l := by
  simp only [normalizeHeadingSpacing]
  split
  · rfl
  · have hk : countLeading (· = '#') (l.drop (countLeading isJsWs l)) = 0 := by
      refine countLeading_zero _ _ (fun c hc => ?_)
      have : c ∈ l := (List.drop_sublist _ _).subset hc
      by_cases he : c = '#'
      · exact absurd (he ▸ this) h
      · simpa using he
    rw [hk]
    simp

lemma splitOnChar_single (sep : Char) (s : List Char) (h : sep ∉ s) :
    splitOnChar sep s = [s] := by
  induction s with
  | nil => rfl
  | cons c rest ih =>
    have hc : c ≠ sep := fun he => h (he ▸ List.mem_cons_self _ _)
    rw [show splitOnChar sep (c :: rest) =
        (match splitOnChar sep rest with
         | l :: ls => (c :: l) :: ls
         | [] => [[c]]) from by simp [splitOnChar, hc]]
    rw [ih (fun hm => h (List.mem_cons.mpr (Or.inr hm)))]

lemma isPipeRow_false (l : List Char) (h : '|' ∉ l) : isPipeRow l = false := by
  have ht : '|' ∉ jsTrim l := fun hm => h (infx_subset _ _ (jsTrim_infx l) _ hm)
  simp only [isPipeRow]
  cases hj : jsTrim l with
  | nil => simp
  | cons c rest =>
    have hc : c ≠ '|' := fun he => ht (hj ▸ he ▸ List.mem_cons_self _ _)
    simp [hc]

lemma isTableSeparator_false (l : List Char) (h : '|' ∉ l) : isTableSeparator l = false := by
  have ht : '|' ∉ jsTrim l := fun hm => h (infx_subset _ _ (jsTrim_infx l) _ hm)
  simp only [isTableSeparator]
  rw [splitOnChar_single '|' (jsTrim l) ht]
  cases hj : jsTrim l with
  | nil => simp
  | cons c rest => simp

lemma nphl_id (l : List Char) (h : '|' ∉ l) : normalizePipeHeavyLine l = l := by
  simp only [normalizePipeHeavyLine]
  have hc : l.countP (· = '|') = 0 := by
    rw [List.countP_eq_zero]
    intro a ha
    by_cases he : a = '|'
    · exact absurd (he ▸ ha) h
    · simpa using he
  rw [hc]
  simp

lemma stage1_id (L : List (List Char)) (h : ∀ l ∈ L, '#' ∉ l ∧ '|' ∉ l) :
    ∀ b, stage1 b L = L := by
  induction L with
  | nil => intro b; rfl
  | cons l rest ih =>
    intro b
    have hl := h l (List.mem_cons_self _ _)
    have hnext : isTableSeparator ((rest.head?).getD []) = false := by
      cases hr : rest.head? with
      | none => simp [isTableSeparator, splitOnChar]
      | some l2 =>
        have hl2 : l2 ∈ rest := by
          cases rest with
          | nil => simp at hr
          | cons a t =>
            simp at hr
            exact hr ▸ List.mem_cons_self _ _
        exact isTableSeparator_false l2 (h l2 (List.mem_cons.mpr (Or.inr hl2))).2
    simp only [stage1]
    rw [nhs_id l hl.1, isPipeRow_false l hl.2, isTableSeparator_false l hl.2, hnext,
      nphl_id l hl.2, ih (fun l2 hl2 => h l2 (List.mem_cons.mpr (Or.inr hl2))) false]
    simp

lemma parseHashWs_none (s : List Char) (h : '#' ∉ s) : parseHashWs s = none := by
  simp only [parseHashWs]
  have hk : countLeading (· = '#') s = 0 := by
    refine countLeading_zero _ _ (fun c hc => ?_)
    by_cases he : c = '#'
    · exact absurd (he ▸ hc) h
    · simpa using he
  rw [hk]
  simp

lemma r2_id (s : List Char) (h : '#' ∉ s) : r2 s = s := by
  induction s with
  | nil => simp [r2]
  | cons c rest ih =>
    have hnone : (if c ≠ '\n' ∧ rest.head? = some '\n' then parseHashWs rest.tail
        else none) = none := by
      split_ifs with hcond
      · exact parseHashWs_none _ (fun hm => h (List.mem_cons.mpr
          (Or.inr ((List.tail_sublist _).subset hm))))
      · rfl
    rw [show r2 (c :: rest) = c :: r2 rest from by
      rw [r2.eq_def]; simp [List.drop_one, hnone]]
    rw [ih (fun hm => h (List.mem_cons.mpr (Or.inr hm)))]

lemma parseHeadingR3_none (excl : List Char → Bool) (s : List Char) (h : '#' ∉ s) :
    parseHeadingR3 excl s = none := by
  simp only [parseHeadingR3]
  rw [parseHashWs_none s h]

lemma r3Aux_id (excl : List Char → Bool) (s : List Char) (h : '#' ∉ s) :
    ∀ b, r3Aux excl b s = s := by
  induction s with
  | nil => intro b; simp [r3Aux]
  | cons c rest ih =>
    intro b
    have hnone : (if b then parseHeadingR3 excl (c :: rest) else none) = none := by
      split_ifs
      · exact parseHeadingR3_none excl _ h
      · rfl
    rw [show r3Aux excl b (c :: rest) = c :: r3Aux excl (c = '\n') rest from by
      rw [r3Aux.eq_def]; simp [hnone]]
    rw [ih (fun hm => h (List.mem_cons.mpr (Or.inr hm))) (c = '\n')]
lemma twoPre_iff (a b : Char) (y : List Char) :
    [a, b].isPrefixOf y = true ↔ y.head? = some a ∧ y.tail.head? = some b := by
  cases y with
  | nil => simp [List.isPrefixOf]
  | cons c y' =>
    cases y' with
    | nil => simp [List.isPrefixOf]
    | cons d y2 =>
      simp [List.isPrefixOf]
      aesop

lemma threePre_iff (a b c : Char) (y : List Char) :
    [a, b, c].isPrefixOf y = true ↔
      y.head? = some a ∧ y.tail.head? = some b ∧ y.tail.tail.head? = some c := by
  cases y with
  | nil => simp [List.isPrefixOf]
  | cons x y' =>
    cases y' with
    | nil => simp [List.isPrefixOf]
    | cons d y2 =>
      cases y2 with
      | nil => simp [List.isPrefixOf]
      | cons e y3 =>
        simp [List.isPrefixOf]
        aesop

lemma r4_head (t : List Char) (h : (r4 t).head? = some '\n') : t.head? = some '\n' := by
  cases t with
  | nil => simp [r4] at h
  | cons c rest =>
    by_cases hc : (c = '\n' && rest.head? = some '\n' && rest.tail.head? = some '\n') = true
    · simp only [Bool.and_eq_true, decide_eq_true_eq] at hc
      simp [hc.1.1]
    · rw [show r4 (c :: rest) = c :: r4 rest from by simp only [r4]; rw [if_neg hc]] at h
      simpa using h

lemma r4_two (t : List Char) (h1 : (r4 t).head? = some '\n')
    (h2 : (r4 t).tail.head? = some '\n') :
    t.head? = some '\n' ∧ t.tail.head? = some '\n' := by
  cases t with
  | nil => simp [r4] at h1
  | cons c rest =>
    by_cases hc : (c = '\n' && rest.head? = some '\n' && rest.tail.head? = some '\n') = true
    · simp only [Bool.and_eq_true, decide_eq_true_eq] at hc
      exact ⟨by simp [hc.1.1], by simpa using hc.1.2⟩
    · rw [show r4 (c :: rest) = c :: r4 rest from by simp only [r4]; rw [if_neg hc]] at h1 h2
      simp at h1
      subst h1
      simp at h2
      exact ⟨rfl, by simpa using r4_head rest h2⟩

lemma r4_pres_pat (a : Char) (s : List Char) (h : containsSub [a, '\n'] s = false) :
    containsSub [a, '\n'] (r4 s) = false := by
  induction s with
  | nil => simpa [r4] using h
  | cons c rest ih =>
    have hrest := containsSub_cons_false [a, '\n'] c rest h
    by_cases hc : (c = '\n' && rest.head? = some '\n' && rest.tail.head? = some '\n') = true
    · rw [show r4 (c :: rest) = r4 rest from by simp only [r4]; rw [if_pos hc]]
      exact ih hrest
    · rw [show r4 (c :: rest) = c :: r4 rest from by simp only [r4]; rw [if_neg hc]]
      simp only [containsSub, Bool.or_eq_false_iff]
      refine ⟨?_, ih hrest⟩
      by_contra hpre
      have hpre2 : [a, '\n'].isPrefixOf (c :: r4 rest) = true := by
        revert hpre
        cases [a, '\n'].isPrefixOf (c :: r4 rest) <;> simp
      rw [twoPre_iff] at hpre2
      obtain ⟨hh, ht⟩ := hpre2
      simp at hh
      subst hh
      have hrh : rest.head? = some '\n' := r4_head rest (by simpa using ht)
      have : containsSub [c, '\n'] (c :: rest) = true := by
        simp only [containsSub, Bool.or_eq_true]
        refine Or.inl ?_
        rw [twoPre_iff]
        exact ⟨by simp, by simpa using hrh⟩
      rw [this] at h
      cases h

lemma r4_no_triple (s : List Char) :
    containsSub ['\n', '\n', '\n'] (r4 s) = false := by
  induction s with
  | nil => simp [r4, containsSub]
  | cons c rest ih =>
    by_cases hc : (c = '\n' && rest.head? = some '\n' && rest.tail.head? = some '\n') = true
    · rw [show r4 (c :: rest) = r4 rest from by simp only [r4]; rw [if_pos hc]]
      exact ih
    · rw [show r4 (c :: rest) = c :: r4 rest from by simp only [r4]; rw [if_neg hc]]
      simp only [containsSub, Bool.or_eq_false_iff]
      refine ⟨?_, ih⟩
      by_contra hpre
      have hpre2 : ['\n', '\n', '\n'].isPrefixOf (c :: r4 rest) = true := by
        revert hpre
        cases ['\n', '\n', '\n'].isPrefixOf (c :: r4 rest) <;> simp
      rw [threePre_iff] at hpre2
      obtain ⟨hh, ht1, ht2⟩ := hpre2
      simp at hh
      subst hh
      obtain ⟨hr1, hr2⟩ := r4_two rest (by simpa using ht1) (by simpa using ht2)
      exact hc (by simp [hr1, hr2])

lemma r4_id (s : List Char) (h : containsSub ['\n', '\n', '\n'] s = false) : r4 s = s := by
  induction s with
  | nil => simp [r4]
  | cons c rest ih =>
    by_cases hc : (c = '\n' && rest.head? = some '\n' && rest.tail.head? = some '\n') = true
    · exfalso
      simp only [Bool.and_eq_true, decide_eq_true_eq] at hc
      have : containsSub ['\n', '\n', '\n'] (c :: rest) = true := by
        simp only [containsSub, Bool.or_eq_true]
        refine Or.inl ?_
        rw [threePre_iff]
        exact ⟨by simp [hc.1.1], by simpa using hc.1.2, by simpa using hc.2⟩
      rw [this] at h
      cases h
    · rw [show r4 (c :: rest) = c :: r4 rest from by simp only [r4]; rw [if_neg hc]]
      rw [ih (containsSub_cons_false _ c rest h)]

lemma st_run_pattern (s : List Char) (hs : (s.dropWhile isST).head? = some '\n') :
    ∀ c, isST c = true →
      containsSub [' ', '\n'] (c :: s) = true ∨ containsSub ['\t', '\n'] (c :: s) = true := by
  induction s with
  | nil =>
    intro c hc
    simp [List.dropWhile] at hs
  | cons d s' ih =>
    intro c hc
    by_cases hd : isST d = true
    · rw [show (d :: s').dropWhile isST = s'.dropWhile isST from by
        simp [List.dropWhile, hd]] at hs
      rcases ih hs d hd with h | h
      · exact Or.inl (containsSub_cons _ c _ h)
      · exact Or.inr (containsSub_cons _ c _ h)
    · have hd' : isST d = false := by simpa using hd
      rw [show (d :: s').dropWhile isST = d :: s' from by
        simp [List.dropWhile, hd']] at hs
      simp at hs
      subst hs
      have hcs : c = ' ' ∨ c = '\t' := by
        revert hc
        simp [isST]
      rcases hcs with rfl | rfl
      · refine Or.inl ?_
        simp only [containsSub, Bool.or_eq_true]
        refine Or.inl ?_
        rw [twoPre_iff]
        simp
      · refine Or.inr ?_
        simp only [containsSub, Bool.or_eq_true]
        refine Or.inl ?_
        rw [twoPre_iff]
        simp

lemma r1_head_nl (s : List Char) (h : (r1 s).head? = some '\n') :
    (s.dropWhile isST).head? = some '\n' := by
  induction s with
  | nil => simp [r1] at h
  | cons c rest ih =>
    by_cases hc : (isST c && (rest.dropWhile isST).head? = some '\n') = true
    · simp only [Bool.and_eq_true, decide_eq_true_eq] at hc
      rw [show (c :: rest).dropWhile isST = rest.dropWhile isST from by
        simp [List.dropWhile, hc.1]]
      exact hc.2
    · rw [show r1 (c :: rest) = c :: r1 rest from by
        simp only [r1]
        rw [if_neg (by simpa [Bool.and_eq_true] using hc)]] at h
      simp at h
      subst h
      rw [dropWhile_of_head_not isST _ (by intro x hx; simp at hx; subst hx; simp [isST])]
      simp

lemma r1_no_tw (s : List Char) :
    containsSub [' ', '\n'] (r1 s) = false ∧ containsSub ['\t', '\n'] (r1 s) = false := by
  induction s with
  | nil => simp [r1, containsSub]
  | cons c rest ih =>
    by_cases hc : (isST c && (rest.dropWhile isST).head? = some '\n') = true
    · rw [show r1 (c :: rest) = r1 rest from by
        simp only [r1]
        rw [if_pos (by simpa [Bool.and_eq_true] using hc)]]
      exact ih
    · rw [show r1 (c :: rest) = c :: r1 rest from by
        simp only [r1]
        rw [if_neg (by simpa [Bool.and_eq_true] using hc)]]
      simp only [Bool.and_eq_true, decide_eq_true_eq, not_and] at hc
      constructor
      · simp only [containsSub, Bool.or_eq_false_iff]
        refine ⟨?_, ih.1⟩
        by_contra hpre
        have hpre2 : [' ', '\n'].isPrefixOf (c :: r1 rest) = true := by
          revert hpre
          cases [' ', '\n'].isPrefixOf (c :: r1 rest) <;> simp
        rw [twoPre_iff] at hpre2
        obtain ⟨hh, ht⟩ := hpre2
        simp at hh
        subst hh
        exact hc (by simp [isST]) (r1_head_nl rest (by simpa using ht))
      · simp only [containsSub, Bool.or_eq_false_iff]
        refine ⟨?_, ih.2⟩
        by_contra hpre
        have hpre2 : ['\t', '\n'].isPrefixOf (c :: r1 rest) = true := by
          revert hpre
          cases ['\t', '\n'].isPrefixOf (c :: r1 rest) <;> simp
        rw [twoPre_iff] at hpre2
        obtain ⟨hh, ht⟩ := hpre2
        simp at hh
        subst hh
        exact hc (by simp [isST]) (r1_head_nl rest (by simpa using ht))

lemma r1_id (s : List Char) (h1 : containsSub [' ', '\n'] s = false)
    (h2 : containsSub ['\t', '\n'] s = false) : r1 s = s := by
  induction s with
  | nil => simp [r1]
  | cons c rest ih =>
    by_cases hc : (isST c && (rest.dropWhile isST).head? = some '\n') = true
    · exfalso
      simp only [Bool.and_eq_true, decide_eq_true_eq] at hc
      rcases st_run_pattern rest hc.2 c hc.1 with hp | hp
      · rw [hp] at h1; cases h1
      · rw [hp] at h2; cases h2
    · rw [show r1 (c :: rest) = c :: r1 rest from by
        simp only [r1]
        rw [if_neg (by simpa [Bool.and_eq_true] using hc)]]
      rw [ih (containsSub_cons_false _ c rest h1) (containsSub_cons_false _ c rest h2)]
/-! String-to-line correspondence for the character-level passes of
normalizeSummaryMarkdown. -/

lemma containsSub_false_of_not_mem (pat s : List Char) (c : Char) (hc : c ∈ pat)
    (h : c ∉ s) : containsSub pat s = false := by
  induction s with
  | nil =>
    simp only [containsSub]
    cases pat with
    | nil => simp at hc
    | cons p ps => simp [List.isEmpty]
  | cons a rest ih =>
    simp only [containsSub, Bool.or_eq_false_iff]
    refine ⟨?_, ih (fun hm => h (List.mem_cons.mpr (Or.inr hm)))⟩
    by_contra hpre
    have hpre2 : pat.isPrefixOf (a :: rest) = true := by
      revert hpre
      cases pat.isPrefixOf (a :: rest) <;> simp
    obtain ⟨t, ht⟩ := List.isPrefixOf_iff_prefix.mp hpre2
    exact h (ht ▸ List.mem_append.mpr (Or.inl hc))

lemma r4_of_no_nl (s : List Char) (h : '\n' ∉ s) : r4 s = s :=
  r4_id s (containsSub_false_of_not_mem _ _ '\n' (by simp) h)

lemma r4_append_no_nl (a t : List Char) (h : '\n' ∉ a) : r4 (a ++ t) = a ++ r4 t := by
  induction a with
  | nil => simp
  | cons c a' ih =>
    have hc : c ≠ '\n' := fun he => h (he ▸ List.mem_cons_self _ _)
    rw [List.cons_append,
      show r4 (c :: (a' ++ t)) = c :: r4 (a' ++ t) from by
        simp only [r4]
        rw [if_neg (by simp [hc])],
      ih (fun hm => h (List.mem_cons.mpr (Or.inr hm))), List.cons_append]

lemma joinNl_cons_of_ne (l : List Char) (rest : List (List Char)) (h : rest ≠ []) :
    joinNl (l :: rest) = l ++ '\n' :: joinNl rest := by
  show joinWith '\n' (l :: rest) = l ++ '\n' :: joinWith '\n' rest
  simp only [joinWith]
  rw [if_neg (by simpa [List.isEmpty_iff] using h)]

lemma all_iff_dropWhile_nil (p : Char → Bool) (l : List Char) :
    l.all p = true ↔ l.dropWhile p = [] := by
  simp [List.all_eq_true, List.dropWhile_eq_nil_iff]

lemma stripTrailST_nil_iff (l : List Char) :
    stripTrailST l = [] ↔ l.all isST = true := by
  show (l.reverse.dropWhile isST).reverse = [] ↔ _
  rw [List.reverse_eq_nil_iff, ← all_iff_dropWhile_nil]
  constructor
  · intro h
    rw [List.all_eq_true] at h ⊢
    intro x hx
    exact h x (List.mem_reverse.mpr hx)
  · intro h
    rw [List.all_eq_true] at h ⊢
    intro x hx
    exact h x (List.mem_reverse.mp hx)

lemma stripTrailST_eq (c : Char) (l : List Char) :
    stripTrailST (c :: l) =
      if l.all isST = true then (if isST c = true then [] else [c])
      else c :: stripTrailST l := by
  show (((c :: l).reverse).dropWhile isST).reverse = _
  rw [List.reverse_cons, List.dropWhile_append]
  by_cases ha : l.all isST = true
  · have hd : l.reverse.dropWhile isST = [] := by
      rw [← all_iff_dropWhile_nil, List.all_eq_true]
      intro x hx
      exact (List.all_eq_true.mp ha) x (List.mem_reverse.mp hx)
    rw [hd, if_pos ha]
    by_cases hc : isST c = true
    · simp [List.dropWhile, hc]
    · simp [List.dropWhile, hc]
  · have hd : l.reverse.dropWhile isST ≠ [] := by
      intro he
      apply ha
      rw [List.all_eq_true]
      intro x hx
      have hall := (all_iff_dropWhile_nil isST l.reverse).mpr he
      exact (List.all_eq_true.mp hall) x (List.mem_reverse.mpr hx)
    rw [if_neg ha,
      show (l.reverse.dropWhile isST).isEmpty = false by simpa [List.isEmpty_iff] using hd]
    simp [stripTrailST]

lemma dropWhile_isST_head_ne (l' t : List Char) (hall : ¬ l'.all isST = true)
    (hnl : '\n' ∉ l') : ((l' ++ '\n' :: t).dropWhile isST).head? ≠ some '\n' := by
  rw [List.dropWhile_append]
  have hd : l'.dropWhile isST ≠ [] := fun he =>
    hall ((all_iff_dropWhile_nil isST l').mpr he)
  rw [show (l'.dropWhile isST).isEmpty = false by simpa [List.isEmpty_iff] using hd,
    if_neg (by simp)]
  cases hdw : l'.dropWhile isST with
  | nil => exact absurd hdw hd
  | cons d ds =>
    have hdmem : d ∈ l' := (List.dropWhile_sublist isST).subset (hdw ▸ List.mem_cons_self _ _)
    intro he
    apply hnl
    have hdn : d = '\n' := by simpa using he
    exact hdn ▸ hdmem

lemma r1_append_line (l t : List Char) (h : '\n' ∉ l) :
    r1 (l ++ '\n' :: t) = stripTrailST l ++ '\n' :: r1 t := by
  induction l with
  | nil =>
    show r1 ('\n' :: t) = '\n' :: r1 t
    simp only [r1]
    rw [if_neg (by simp [isST])]
  | cons c l' ih =>
    have hl' : '\n' ∉ l' := fun hm => h (List.mem_cons.mpr (Or.inr hm))
    by_cases hcond : isST c = true ∧ l'.all isST = true
    · have hdrop : ((l' ++ '\n' :: t).dropWhile isST).head? = some '\n' := by
        rw [List.dropWhile_append,
          show (l'.dropWhile isST).isEmpty = true from by
            rw [(all_iff_dropWhile_nil isST l').mp hcond.2]; rfl]
        rw [show ('\n' :: t).dropWhile isST = '\n' :: t from by
          simp [List.dropWhile, isST]]
        rfl
      rw [List.cons_append,
        show r1 (c :: (l' ++ '\n' :: t)) = r1 (l' ++ '\n' :: t) from by
          simp only [r1]
          rw [if_pos (by simp [hcond.1, hdrop])],
        ih hl', stripTrailST_eq, if_pos hcond.2, if_pos hcond.1,
        (stripTrailST_nil_iff l').mpr hcond.2]
    · have hkeep : ¬ (isST c && ((l' ++ '\n' :: t).dropWhile isST).head? = some '\n') = true := by
        simp only [Bool.and_eq_true, decide_eq_true_eq, not_and]
        intro h1 h2
        by_cases ha : l'.all isST = true
        · exact hcond ⟨h1, ha⟩
        · exact dropWhile_isST_head_ne l' t ha hl' h2
      rw [List.cons_append,
        show r1 (c :: (l' ++ '\n' :: t)) = c :: r1 (l' ++ '\n' :: t) from by
          simp only [r1]
          rw [if_neg hkeep],
        ih hl', stripTrailST_eq]
      by_cases ha : l'.all isST = true
      · have hc : ¬ isST c = true := fun h1 => hcond ⟨h1, ha⟩
        rw [if_pos ha, if_neg hc, (stripTrailST_nil_iff l').mpr ha]
        rfl
      · rw [if_neg ha]
        rfl

lemma r1_joinNl (M : List (List Char)) (h : ∀ l ∈ M, '\n' ∉ l) :
    r1 (joinNl M) = joinNl (r1Lines M) := by
  induction M with
  | nil => rfl
  | cons l rest ih =>
    cases rest with
    | nil =>
      show r1 (joinWith '\n' [l]) = joinWith '\n' (r1Lines [l])
      simp only [joinWith, r1Lines]
      rw [show (([] : List (List Char)).isEmpty) = true from rfl]
      simp only [if_true, List.append_nil]
      exact r1_id l
        (containsSub_false_of_not_mem _ _ '\n' (by simp) (h l (List.mem_cons_self _ _)))
        (containsSub_false_of_not_mem _ _ '\n' (by simp) (h l (List.mem_cons_self _ _)))
    | cons m rest' =>
      rw [joinNl_cons_of_ne l (m :: rest') (by simp),
        r1_append_line l (joinNl (m :: rest')) (h l (List.mem_cons_self _ _)),
        ih (fun x hx => h x (List.mem_cons.mpr (Or.inr hx))),
        show r1Lines (l :: m :: rest') = stripTrailST l :: r1Lines (m :: rest') from rfl,
        joinNl_cons_of_ne (stripTrailST l) (r1Lines (m :: rest')) (by
          cases rest' with
          | nil => simp [r1Lines]
          | cons a b => simp [r1Lines])]
lemma head_ne_nl (l : List Char) (h : '\n' ∉ l) : l.head? ≠ some '\n' := by
  cases l with
  | nil => simp
  | cons c rest =>
    intro he
    apply h
    have hce : c = '\n' := by simpa using he
    exact hce ▸ List.mem_cons_self _ _

lemma r4L_ne_nil (M : List (List Char)) (h : M ≠ []) : r4L M ≠ [] := by
  induction M with
  | nil => exact absurd rfl h
  | cons l rest ih =>
    cases rest with
    | nil => simp [r4L]
    | cons m rest' =>
      by_cases hc : l = [] ∧ m = [] ∧ rest' ≠ []
      · rw [show r4L (l :: m :: rest') = r4L (m :: rest') from by
          simp only [r4L]; rw [if_pos hc]]
        exact ih (by simp)
      · rw [show r4L (l :: m :: rest') = l :: r4L (m :: rest') from by
          simp only [r4L]; rw [if_neg hc]]
        simp

lemma r4_boundary (M : List (List Char)) (hnl : ∀ l ∈ M, '\n' ∉ l) (hne : M ≠ []) :
    r4 ('\n' :: joinNl M) = '\n' :: joinNl (r4L M) := by
  induction M with
  | nil => exact absurd rfl hne
  | cons l rest ih =>
    cases rest with
    | nil =>
      have hj : joinNl [l] = l := by simp [joinNl, joinWith]
      rw [show r4L [l] = [l] from rfl, hj,
        show r4 ('\n' :: l) = '\n' :: r4 l from by
          simp only [r4]
          rw [if_neg (by
            simp only [Bool.and_eq_true, decide_eq_true_eq]
            rintro ⟨⟨-, hh⟩, -⟩
            exact head_ne_nl l (hnl l (List.mem_cons_self _ _)) hh)],
        r4_of_no_nl l (hnl l (List.mem_cons_self _ _))]
    | cons m rest' =>
      have hl := hnl l (List.mem_cons_self _ _)
      have hrest : ∀ x ∈ m :: rest', '\n' ∉ x :=
        fun x hx => hnl x (List.mem_cons.mpr (Or.inr hx))
      by_cases hc : l = [] ∧ m = [] ∧ rest' ≠ []
      · obtain ⟨hl0, hm0, hr⟩ := hc
        subst hl0
        subst hm0
        have hj1 : joinNl ([] :: [] :: rest') = '\n' :: '\n' :: joinNl rest' := by
          rw [joinNl_cons_of_ne [] ([] :: rest') (by simp),
            joinNl_cons_of_ne [] rest' hr]
          rfl
        have hj2 : joinNl ([] :: rest') = '\n' :: joinNl rest' := by
          rw [joinNl_cons_of_ne [] rest' hr]
          rfl
        rw [hj1,
          show r4 ('\n' :: '\n' :: '\n' :: joinNl rest') =
              r4 ('\n' :: '\n' :: joinNl rest') from by
            simp only [r4]
            rw [if_pos (by simp)],
          show ('\n' : Char) :: '\n' :: joinNl rest' = '\n' :: joinNl ([] :: rest') from by
            rw [hj2],
          ih hrest (by simp),
          show r4L ([] :: [] :: rest') = r4L ([] :: rest') from by
            simp only [r4L]
            rw [if_pos (by refine ⟨?_, ?_, hr⟩ <;> trivial)]]
      · have hS : ¬((joinNl (l :: m :: rest')).head? = some '\n' ∧
            (joinNl (l :: m :: rest')).tail.head? = some '\n') := by
          rw [joinNl_cons_of_ne l (m :: rest') (by simp)]
          cases l with
          | cons c l'' =>
            rintro ⟨hh, -⟩
            have hce : c = '\n' := by simpa using hh
            exact hnl (c :: l'') (List.mem_cons_self _ _) (hce ▸ List.mem_cons_self _ _)
          | nil =>
            rintro ⟨-, ht⟩
            simp only [List.nil_append, List.tail_cons] at ht
            cases m with
            | cons d m'' =>
              have hhead : (joinNl ((d :: m'') :: rest')).head? = some d := by
                cases rest' with
                | nil => simp [joinNl, joinWith]
                | cons a b =>
                  rw [joinNl_cons_of_ne (d :: m'') (a :: b) (by simp)]
                  simp
              rw [hhead] at ht
              have hde : d = '\n' := by simpa using ht
              exact hnl (d :: m'') (by simp) (hde ▸ List.mem_cons_self _ _)
            | nil =>
              have hr0 : rest' = [] := by
                by_contra hr
                exact hc ⟨rfl, rfl, hr⟩
              subst hr0
              simp [joinNl, joinWith] at ht
        have hkeep : r4 ('\n' :: joinNl (l :: m :: rest')) =
            '\n' :: r4 (joinNl (l :: m :: rest')) := by
          simp only [r4]
          rw [if_neg (by
            simp only [Bool.and_eq_true, decide_eq_true_eq]
            rintro ⟨⟨-, hh⟩, ht⟩
            exact hS ⟨hh, ht⟩)]
        rw [hkeep, joinNl_cons_of_ne l (m :: rest') (by simp),
          r4_append_no_nl l _ hl, ih hrest (by simp),
          show r4L (l :: m :: rest') = l :: r4L (m :: rest') from by
            simp only [r4L]; rw [if_neg hc],
          joinNl_cons_of_ne l (r4L (m :: rest')) (r4L_ne_nil _ (by simp))]

lemma r4_joinNl (M : List (List Char)) (hnl : ∀ l ∈ M, '\n' ∉ l) :
    r4 (joinNl M) = joinNl (r4Lines M) := by
  cases M with
  | nil => rfl
  | cons l rest =>
    cases rest with
    | nil =>
      rw [show r4Lines [l] = [l] from rfl,
        show joinNl [l] = l from by simp [joinNl, joinWith]]
      exact r4_of_no_nl l (hnl l (List.mem_cons_self _ _))
    | cons m rest' =>
      rw [joinNl_cons_of_ne l (m :: rest') (by simp),
        r4_append_no_nl l _ (hnl l (List.mem_cons_self _ _)),
        r4_boundary (m :: rest') (fun x hx => hnl x (List.mem_cons.mpr (Or.inr hx)))
          (by simp),
        show r4Lines (l :: m :: rest') = l :: r4L (m :: rest') from rfl,
        joinNl_cons_of_ne l (r4L (m :: rest')) (r4L_ne_nil _ (by simp))]

lemma mem_joinNl (M : List (List Char)) (l : List Char) (c : Char)
    (hl : l ∈ M) (hc : c ∈ l) : c ∈ joinNl M := by
  induction M with
  | nil => simp at hl
  | cons x rest ih =>
    cases rest with
    | nil =>
      rw [show joinNl [x] = x from by simp [joinNl, joinWith]]
      rcases List.mem_cons.mp hl with rfl | h2
      · exact hc
      · simp at h2
    | cons m rest' =>
      rw [joinNl_cons_of_ne x (m :: rest') (by simp)]
      rcases List.mem_cons.mp hl with rfl | h2
      · exact List.mem_append.mpr (Or.inl hc)
      · exact List.mem_append.mpr (Or.inr (List.mem_cons.mpr (Or.inr (ih h2))))

lemma joinNl_mem (M : List (List Char)) (c : Char) (hc : c ∈ joinNl M) :
    c = '\n' ∨ ∃ l ∈ M, c ∈ l := by
  induction M with
  | nil => simp [joinNl, joinWith] at hc
  | cons x rest ih =>
    cases rest with
    | nil =>
      rw [show joinNl [x] = x from by simp [joinNl, joinWith]] at hc
      exact Or.inr ⟨x, List.mem_cons_self _ _, hc⟩
    | cons m rest' =>
      rw [joinNl_cons_of_ne x (m :: rest') (by simp)] at hc
      rcases List.mem_append.mp hc with h | h
      · exact Or.inr ⟨x, List.mem_cons_self _ _, h⟩
      · rcases List.mem_cons.mp h with rfl | h2
        · exact Or.inl rfl
        · rcases ih h2 with h3 | ⟨l, hl, hcl⟩
          · exact Or.inl h3
          · exact Or.inr ⟨l, List.mem_cons.mpr (Or.inr hl), hcl⟩

lemma joinNl_all_ws (M : List (List Char)) (h : ∀ l ∈ M, l.all isJsWs = true) :
    (joinNl M).all isJsWs = true := by
  rw [List.all_eq_true]
  intro c hc
  rcases joinNl_mem M c hc with rfl | ⟨l, hl, hcl⟩
  · simp [isJsWs]
  · exact (List.all_eq_true.mp (h l hl)) c hcl

lemma all_ws_reverse (l : List Char) (h : l.all isJsWs = true) :
    l.reverse.all isJsWs = true := by
  rw [List.all_eq_true] at h ⊢
  intro c hc
  exact h c (List.mem_reverse.mp hc)

lemma dropTrailWs_append_ws (a w : List Char) (hw : w.all isJsWs = true) :
    dropTrailWs (a ++ w) = dropTrailWs a := by
  show ((a ++ w).reverse.dropWhile isJsWs).reverse = (a.reverse.dropWhile isJsWs).reverse
  rw [List.reverse_append, List.dropWhile_append,
    show (w.reverse.dropWhile isJsWs).isEmpty = true from by
      rw [(all_iff_dropWhile_nil isJsWs w.reverse).mp (all_ws_reverse w hw)]
      rfl,
    if_pos rfl]

lemma dropTrailWs_append_keep (a b : List Char) (hb : ¬ b.all isJsWs = true) :
    dropTrailWs (a ++ b) = a ++ dropTrailWs b := by
  show ((a ++ b).reverse.dropWhile isJsWs).reverse = a ++ (b.reverse.dropWhile isJsWs).reverse
  rw [List.reverse_append, List.dropWhile_append]
  have hd : b.reverse.dropWhile isJsWs ≠ [] := by
    intro he
    apply hb
    rw [List.all_eq_true]
    intro c hc
    exact (List.all_eq_true.mp ((all_iff_dropWhile_nil isJsWs b.reverse).mpr he)) c
      (List.mem_reverse.mpr hc)
  rw [show (b.reverse.dropWhile isJsWs).isEmpty = false from by
      simpa [List.isEmpty_iff] using hd,
    if_neg (by simp), List.reverse_append]
  simp

lemma ltrim_joinNl (M : List (List Char)) :
    (joinNl M).dropWhile isJsWs = joinNl (ltrimL M) := by
  induction M with
  | nil => rfl
  | cons l rest ih =>
    cases rest with
    | nil =>
      rw [show ltrimL [l] = [l.dropWhile isJsWs] from by
          simp only [ltrimL]
          rw [if_neg (by simp)],
        show joinNl [l] = l from by simp [joinNl, joinWith],
        show joinNl [l.dropWhile isJsWs] = l.dropWhile isJsWs from by
          simp [joinNl, joinWith]]
    | cons m rest' =>
      rw [joinNl_cons_of_ne l (m :: rest') (by simp), List.dropWhile_append]
      by_cases ha : l.all isJsWs = true
      · rw [show (l.dropWhile isJsWs).isEmpty = true from by
            rw [(all_iff_dropWhile_nil isJsWs l).mp ha]; rfl,
          if_pos rfl,
          show ('\n' :: joinNl (m :: rest')).dropWhile isJsWs =
              (joinNl (m :: rest')).dropWhile isJsWs from by
            simp [List.dropWhile, isJsWs],
          ih,
          show ltrimL (l :: m :: rest') = ltrimL (m :: rest') from by
            simp only [ltrimL]
            rw [if_pos ⟨ha, by simp⟩]]
      · rw [show (l.dropWhile isJsWs).isEmpty = false from by
            simpa [List.isEmpty_iff] using
              (fun he => ha ((all_iff_dropWhile_nil isJsWs l).mpr he)),
          if_neg (by simp),
          show ltrimL (l :: m :: rest') = l.dropWhile isJsWs :: m :: rest' from by
            simp only [ltrimL]
            rw [if_neg (by simp [ha])],
          joinNl_cons_of_ne (l.dropWhile isJsWs) (m :: rest') (by simp)]

lemma rtrimL_ne_nil (M : List (List Char)) (h : M ≠ []) : rtrimL M ≠ [] := by
  cases M with
  | nil => exact absurd rfl h
  | cons l rest =>
    simp only [rtrimL]
    split_ifs <;> simp

lemma rtrim_joinNl (M : List (List Char)) :
    dropTrailWs (joinNl M) = joinNl (rtrimL M) := by
  induction M with
  | nil => rfl
  | cons l rest ih =>
    by_cases hw : rest.all (fun m => m.all isJsWs) = true
    · rw [show rtrimL (l :: rest) = [dropTrailWs l] from by
        simp only [rtrimL]; rw [if_pos hw]]
      cases rest with
      | nil =>
        rw [show joinNl [l] = l from by simp [joinNl, joinWith],
          show joinNl [dropTrailWs l] = dropTrailWs l from by simp [joinNl, joinWith]]
      | cons m rest' =>
        rw [joinNl_cons_of_ne l (m :: rest') (by simp),
          dropTrailWs_append_ws l _ (by
            simp only [List.all_cons, Bool.and_eq_true]
            exact ⟨by simp [isJsWs],
              joinNl_all_ws _ (fun x hx => (List.all_eq_true.mp hw) x hx)⟩),
          show joinNl [dropTrailWs l] = dropTrailWs l from by simp [joinNl, joinWith]]
    · have hrestne : rest ≠ [] := by
        intro h
        subst h
        simp at hw
      have hnotall : ¬ ('\n' :: joinNl rest).all isJsWs = true := by
        intro hall
        apply hw
        rw [List.all_eq_true]
        intro m hm
        rw [List.all_eq_true]
        intro c hc
        exact (List.all_eq_true.mp hall) c
          (List.mem_cons.mpr (Or.inr (mem_joinNl rest m c hm hc)))
      rw [show rtrimL (l :: rest) = l :: rtrimL rest from by
          simp only [rtrimL]; rw [if_neg hw],
        joinNl_cons_of_ne l rest hrestne,
        dropTrailWs_append_keep l _ hnotall,
        show dropTrailWs ('\n' :: joinNl rest) = '\n' :: dropTrailWs (joinNl rest) from by
          have hnb : ¬ (joinNl rest).all isJsWs = true := by
            intro hall
            apply hnotall
            simp only [List.all_cons, Bool.and_eq_true]
            exact ⟨by simp [isJsWs], hall⟩
          simpa using dropTrailWs_append_keep ['\n'] (joinNl rest) hnb,
        ih, joinNl_cons_of_ne l (rtrimL rest) (rtrimL_ne_nil rest hrestne)]

lemma splitOnChar_append_sep (sep : Char) (l t : List Char) (h : sep ∉ l) :
    splitOnChar sep (l ++ sep :: t) = l :: splitOnChar sep t := by
  induction l with
  | nil =>
    show splitOnChar sep (sep :: t) = [] :: splitOnChar sep t
    simp [splitOnChar]
  | cons c l' ih =>
    have hc : c ≠ sep := fun he => h (he ▸ List.mem_cons_self _ _)
    rw [List.cons_append,
      show splitOnChar sep (c :: (l' ++ sep :: t)) =
          (match splitOnChar sep (l' ++ sep :: t) with
           | x :: xs => (c :: x) :: xs
           | [] => [[c]]) from by simp [splitOnChar, hc],
      ih (fun hm => h (List.mem_cons.mpr (Or.inr hm)))]

lemma splitNl_joinNl (M : List (List Char)) (hnl : ∀ l ∈ M, '\n' ∉ l) (hne : M ≠ []) :
    splitNl (joinNl M) = M := by
  induction M with
  | nil => exact absurd rfl hne
  | cons l rest ih =>
    cases rest with
    | nil =>
      rw [show joinNl [l] = l from by simp [joinNl, joinWith]]
      exact splitOnChar_single '\n' l (hnl l (List.mem_cons_self _ _))
    | cons m rest' =>
      rw [joinNl_cons_of_ne l (m :: rest') (by simp)]
      show splitOnChar '\n' (l ++ '\n' :: joinNl (m :: rest')) = l :: m :: rest'
      rw [splitOnChar_append_sep '\n' l _ (hnl l (List.mem_cons_self _ _)),
        show splitOnChar '\n' (joinNl (m :: rest')) = splitNl (joinNl (m :: rest')) from rfl,
        ih (fun x hx => hnl x (List.mem_cons.mpr (Or.inr hx))) (by simp)]
/-! Invariance of the per-line classifications under edge-whitespace
changes, and the characterization of lines left unchanged by
normalizePipeHeavyLine. -/

lemma splitOnChar_sep_not_mem (sep : Char) (s : List Char) :
    ∀ p ∈ splitOnChar sep s, sep ∉ p := by
  induction s with
  | nil =>
    intro p hp
    simp [splitOnChar] at hp
    subst hp
    simp
  | cons c rest ih =>
    intro p hp
    by_cases hc : c = sep
    · rw [show splitOnChar sep (c :: rest) = [] :: splitOnChar sep rest from by
        simp [splitOnChar, hc]] at hp
      rcases List.mem_cons.mp hp with rfl | h2
      · simp
      · exact ih p h2
    · rw [show splitOnChar sep (c :: rest) =
          (match splitOnChar sep rest with
           | x :: xs => (c :: x) :: xs
           | [] => [[c]]) from by simp [splitOnChar, hc]] at hp
      cases hs : splitOnChar sep rest with
      | nil => exact absurd hs (splitOnChar_ne_nil sep rest)
      | cons x xs =>
        rw [hs] at hp
        rcases List.mem_cons.mp hp with rfl | h2
        · intro hm
          rcases List.mem_cons.mp hm with h3 | h3
          · exact hc h3.symm
          · exact ih x (hs ▸ List.mem_cons_self _ _) h3
        · exact ih p (hs ▸ List.mem_cons.mpr (Or.inr h2))

lemma jsTrim_append_ws (a w : List Char) (hw : w.all isJsWs = true) :
    jsTrim (a ++ w) = jsTrim a := by
  show dropTrailWs ((a ++ w).dropWhile isJsWs) = dropTrailWs (a.dropWhile isJsWs)
  rw [List.dropWhile_append]
  by_cases ha : (a.dropWhile isJsWs).isEmpty = true
  · rw [if_pos ha,
      show a.dropWhile isJsWs = [] from by simpa [List.isEmpty_iff] using ha,
      (all_iff_dropWhile_nil isJsWs w).mp hw]
  · rw [if_neg ha, dropTrailWs_append_ws _ w hw]

lemma jsTrim_ws_append (w a : List Char) (hw : w.all isJsWs = true) :
    jsTrim (w ++ a) = jsTrim a := by
  show dropTrailWs ((w ++ a).dropWhile isJsWs) = dropTrailWs (a.dropWhile isJsWs)
  rw [List.dropWhile_append,
    show (w.dropWhile isJsWs).isEmpty = true from by
      rw [(all_iff_dropWhile_nil isJsWs w).mp hw]; rfl,
    if_pos rfl]

lemma all_ws_jsTrim_nil (w : List Char) (hw : w.all isJsWs = true) : jsTrim w = [] := by
  have h := jsTrim_append_ws [] w hw
  simpa using h

lemma isPipeRow_congr (a b : List Char) (h : jsTrim a = jsTrim b) :
    isPipeRow a = isPipeRow b := by
  simp only [isPipeRow]
  rw [h]

lemma isTableSeparator_congr (a b : List Char) (h : jsTrim a = jsTrim b) :
    isTableSeparator a = isTableSeparator b := by
  simp only [isTableSeparator]
  rw [h]

lemma qLine_congr (a b : List Char) (h : jsTrim a = jsTrim b) : qLine a = qLine b := by
  simp only [qLine]
  rw [isPipeRow_congr a b h, isTableSeparator_congr a b h]

lemma splitOnChar_append_last (sep : Char) (a b : List Char) (hb : sep ∉ b) :
    ∃ C cs, splitOnChar sep a = C ++ [cs] ∧ splitOnChar sep (a ++ b) = C ++ [cs ++ b] := by
  induction a with
  | nil =>
    refine ⟨[], [], rfl, ?_⟩
    simpa using splitOnChar_single sep b hb
  | cons c a' ih =>
    obtain ⟨C, cs, h1, h2⟩ := ih
    by_cases hc : c = sep
    · refine ⟨[] :: C, cs, ?_, ?_⟩
      · rw [show splitOnChar sep (c :: a') = [] :: splitOnChar sep a' from by
          simp [splitOnChar, hc], h1]
        rfl
      · rw [List.cons_append,
          show splitOnChar sep (c :: (a' ++ b)) = [] :: splitOnChar sep (a' ++ b) from by
            simp [splitOnChar, hc], h2]
        rfl
    · cases C with
      | nil =>
        refine ⟨[], c :: cs, ?_, ?_⟩
        · rw [show splitOnChar sep (c :: a') =
              (match splitOnChar sep a' with
               | x :: xs => (c :: x) :: xs
               | [] => [[c]]) from by simp [splitOnChar, hc], h1]
          simp
        · rw [List.cons_append,
            show splitOnChar sep (c :: (a' ++ b)) =
              (match splitOnChar sep (a' ++ b) with
               | x :: xs => (c :: x) :: xs
               | [] => [[c]]) from by simp [splitOnChar, hc], h2]
          simp
      | cons C0 C1 =>
        refine ⟨(c :: C0) :: C1, cs, ?_, ?_⟩
        · rw [show splitOnChar sep (c :: a') =
              (match splitOnChar sep a' with
               | x :: xs => (c :: x) :: xs
               | [] => [[c]]) from by simp [splitOnChar, hc], h1]
          rfl
        · rw [List.cons_append,
            show splitOnChar sep (c :: (a' ++ b)) =
              (match splitOnChar sep (a' ++ b) with
               | x :: xs => (c :: x) :: xs
               | [] => [[c]]) from by simp [splitOnChar, hc], h2]
          rfl

lemma splitOnChar_prepend (sep : Char) (w a : List Char) (hw : sep ∉ w) :
    ∃ cs C, splitOnChar sep a = cs :: C ∧ splitOnChar sep (w ++ a) = (w ++ cs) :: C := by
  induction w with
  | nil =>
    cases hs : splitOnChar sep a with
    | nil => exact absurd hs (splitOnChar_ne_nil sep a)
    | cons cs C => exact ⟨cs, C, rfl, by simpa using hs⟩
  | cons c w' ih =>
    have hc : c ≠ sep := fun he => hw (he ▸ List.mem_cons_self _ _)
    obtain ⟨cs, C, h1, h2⟩ := ih (fun hm => hw (List.mem_cons.mpr (Or.inr hm)))
    refine ⟨cs, C, h1, ?_⟩
    rw [List.cons_append,
      show splitOnChar sep (c :: (w' ++ a)) =
        (match splitOnChar sep (w' ++ a) with
         | x :: xs => (c :: x) :: xs
         | [] => [[c]]) from by simp [splitOnChar, hc], h2]
    simp

lemma segs_append_ws (l w : List Char) (hw : w.all isJsWs = true) (hp : '|' ∉ w) :
    (splitOnChar '|' (l ++ w)).map jsTrim = (splitOnChar '|' l).map jsTrim := by
  obtain ⟨C, cs, h1, h2⟩ := splitOnChar_append_last '|' l w hp
  rw [h1, h2, List.map_append, List.map_append]
  simp only [List.map_cons, List.map_nil]
  rw [jsTrim_append_ws cs w hw]

lemma segs_prepend_ws (w l : List Char) (hw : w.all isJsWs = true) (hp : '|' ∉ w) :
    (splitOnChar '|' (w ++ l)).map jsTrim = (splitOnChar '|' l).map jsTrim := by
  obtain ⟨cs, C, h1, h2⟩ := splitOnChar_prepend '|' w l hp
  rw [h1, h2, List.map_cons, List.map_cons, jsTrim_ws_append w cs hw]

lemma countP_pipe_append (l w : List Char) (hp : '|' ∉ w) :
    (l ++ w).countP (· = '|') = l.countP (· = '|') := by
  rw [List.countP_append,
    show w.countP (· = '|') = 0 from List.countP_eq_zero.mpr (fun c hc => by
      simp only [decide_eq_true_eq]
      intro he
      exact hp (he ▸ hc))]
  omega

lemma countP_pipe_prepend (w l : List Char) (hp : '|' ∉ w) :
    (w ++ l).countP (· = '|') = l.countP (· = '|') := by
  rw [List.countP_append,
    show w.countP (· = '|') = 0 from List.countP_eq_zero.mpr (fun c hc => by
      simp only [decide_eq_true_eq]
      intro he
      exact hp (he ▸ hc))]
  omega

lemma joinWith_mem (sep : Char) (ls : List (List Char)) (c : Char)
    (hc : c ∈ joinWith sep ls) : c = sep ∨ ∃ x ∈ ls, c ∈ x := by
  induction ls with
  | nil => simp [joinWith] at hc
  | cons x rest ih =>
    rw [show joinWith sep (x :: rest) =
        x ++ (if rest.isEmpty then [] else sep :: joinWith sep rest) from rfl] at hc
    rcases List.mem_append.mp hc with h | h
    · exact Or.inr ⟨x, List.mem_cons_self _ _, h⟩
    · split_ifs at h with hre
      · simp at h
      · rcases List.mem_cons.mp h with rfl | h2
        · exact Or.inl rfl
        · rcases ih h2 with h3 | ⟨y, hy, hcy⟩
          · exact Or.inl h3
          · exact Or.inr ⟨y, List.mem_cons.mpr (Or.inr hy), hcy⟩

lemma nphl_rewritten_no_pipe (l : List Char) (c : Char)
    (hc : c ∈ '-' :: ' ' :: joinWith '；'
      (((splitOnChar '|' l).map jsTrim).filter
        (fun segment => 0 < segment.length && !isSepCellStr segment))) : c ≠ '|' := by
  rcases List.mem_cons.mp hc with rfl | hc2
  · simp
  · rcases List.mem_cons.mp hc2 with rfl | hc3
    · simp
    · rcases joinWith_mem '；' _ c hc3 with rfl | ⟨x, hx, hcx⟩
      · simp
      · have hx2 := List.mem_filter.mp hx
        obtain ⟨p, hp, hpx⟩ := List.mem_map.mp hx2.1
        intro he
        subst he
        exact splitOnChar_sep_not_mem '|' l p hp
          (infx_subset _ _ (hpx ▸ jsTrim_infx p) '|' hcx)

lemma nphl_id_iff (l : List Char) :
    normalizePipeHeavyLine l = l ↔
      (l.countP (· = '|') < 4 ∨
        (((splitOnChar '|' l).map jsTrim).filter
          (fun segment => 0 < segment.length && !isSepCellStr segment)).length < 2) := by
  constructor
  · intro h
    by_contra hcond
    push_neg at hcond
    obtain ⟨h4, h2⟩ := hcond
    have hout : normalizePipeHeavyLine l = '-' :: ' ' :: joinWith '；'
        (((splitOnChar '|' l).map jsTrim).filter
          (fun segment => 0 < segment.length && !isSepCellStr segment)) := by
      simp only [normalizePipeHeavyLine]
      rw [if_neg (by omega), if_neg (by omega)]
    rw [h] at hout
    have hcount : l.countP (· = '|') = 0 := by
      rw [hout]
      refine List.countP_eq_zero.mpr (fun c hc => ?_)
      simp only [decide_eq_true_eq]
      exact nphl_rewritten_no_pipe l c hc
    omega
  · intro h
    simp only [normalizePipeHeavyLine]
    rcases h with h | h
    · rw [if_pos h]
    · split_ifs with h4 h2
      all_goals rfl

lemma nphl_id_append_ws (l w : List Char) (hw : w.all isJsWs = true) (hp : '|' ∉ w) :
    normalizePipeHeavyLine (l ++ w) = l ++ w ↔ normalizePipeHeavyLine l = l := by
  rw [nphl_id_iff, nphl_id_iff, countP_pipe_append l w hp, segs_append_ws l w hw hp]

lemma nphl_id_prepend_ws (w l : List Char) (hw : w.all isJsWs = true) (hp : '|' ∉ w) :
    normalizePipeHeavyLine (w ++ l) = w ++ l ↔ normalizePipeHeavyLine l = l := by
  rw [nphl_id_iff, nphl_id_iff, countP_pipe_prepend w l hp, segs_prepend_ws w l hw hp]

lemma nphl_idem (l : List Char) :
    normalizePipeHeavyLine (normalizePipeHeavyLine l) = normalizePipeHeavyLine l := by
  by_cases h : l.countP (· = '|') < 4 ∨
      (((splitOnChar '|' l).map jsTrim).filter
        (fun segment => 0 < segment.length && !isSepCellStr segment)).length < 2
  · rw [(nphl_id_iff l).mpr h, (nphl_id_iff l).mpr h]
  · push_neg at h
    have hout : normalizePipeHeavyLine l = '-' :: ' ' :: joinWith '；'
        (((splitOnChar '|' l).map jsTrim).filter
          (fun segment => 0 < segment.length && !isSepCellStr segment)) := by
      simp only [normalizePipeHeavyLine]
      rw [if_neg (by omega), if_neg (by omega)]
    rw [hout]
    refine (nphl_id_iff _).mpr (Or.inl ?_)
    have : ('-' :: ' ' :: joinWith '；'
        (((splitOnChar '|' l).map jsTrim).filter
          (fun segment => 0 < segment.length && !isSepCellStr segment))).countP (· = '|') = 0 := by
      refine List.countP_eq_zero.mpr (fun c hc => ?_)
      simp only [decide_eq_true_eq]
      exact nphl_rewritten_no_pipe l c hc
    omega

lemma isPipeRow_ne_nil (r : List Char) (h : isPipeRow r = true) : jsTrim r ≠ [] := by
  simp only [isPipeRow, Bool.and_eq_true, decide_eq_true_eq] at h
  intro he
  rw [he] at h
  simp at h

lemma isTableSeparator_ne_nil (r : List Char) (h : isTableSeparator r = true) :
    jsTrim r ≠ [] := by
  simp only [isTableSeparator] at h
  intro he
  rw [he] at h
  simp [splitOnChar] at h

lemma qLine_ne_ws (r : List Char) (h : qLine r = true) : ¬ r.all isJsWs = true := by
  intro hall
  have he : jsTrim r = [] := all_ws_jsTrim_nil r hall
  simp only [qLine, Bool.or_eq_true] at h
  rcases h with h | h
  · exact isPipeRow_ne_nil r h he
  · exact isTableSeparator_ne_nil r h he

lemma qLine_ne_nil (r : List Char) (h : qLine r = true) : r ≠ [] := by
  intro he
  subst he
  exact qLine_ne_ws [] h (by simp)
/-! The table state machine is the identity on GoodLines lists, and the
first pass always produces a GoodLines list. -/

lemma stage1_cons (b : Bool) (l : List Char) (rest : List (List Char)) :
    stage1 b (l :: rest) =
      (if (b && (isPipeRow (normalizeHeadingSpacing l) ||
            isTableSeparator (normalizeHeadingSpacing l))) = true then
        normalizeHeadingSpacing l :: stage1 true rest
      else if (isPipeRow (normalizeHeadingSpacing l) &&
            isTableSeparator ((rest.head?).getD [])) = true then
        normalizeHeadingSpacing l :: stage1 true rest
      else normalizePipeHeavyLine (normalizeHeadingSpacing l) :: stage1 false rest) := rfl

lemma good_cons (l : List Char) (L : List (List Char)) (h : GoodLines (l :: L)) :
    (normalizePipeHeavyLine l = l ∧ GoodLines L) ∨
    (∃ s rows L2, L = s :: (rows ++ L2) ∧ isPipeRow l = true ∧
      isTableSeparator s = true ∧ (∀ r ∈ rows, qLine r = true) ∧ GoodLines L2) := by
  cases h with
  | plain _ _ hp hg => exact Or.inl ⟨hp, hg⟩
  | table hh ss rows L2 hpr hsep hrows hg =>
    exact Or.inr ⟨ss, rows, L2, rfl, hpr, hsep, hrows, hg⟩

lemma mem_takeWhile_q (p : List Char → Bool) (M : List (List Char)) :
    ∀ r ∈ M.takeWhile p, p r = true := by
  induction M with
  | nil => intro r hr; simp at hr
  | cons m rest ih =>
    intro r hr
    by_cases hm : p m = true
    · rw [show (m :: rest).takeWhile p = m :: rest.takeWhile p from by
        simp [List.takeWhile_cons, hm]] at hr
      rcases List.mem_cons.mp hr with rfl | h2
      · exact hm
      · exact ih r h2
    · rw [show (m :: rest).takeWhile p = [] from by
        simp [List.takeWhile_cons,
          show p m = false from by revert hm; cases p m <;> simp]] at hr
      simp at hr

lemma stage1_rows_absorb (rows L : List (List Char))
    (hq : ∀ r ∈ rows, qLine r = true)
    (hn : ∀ r ∈ rows, normalizeHeadingSpacing r = r)
    (hL : stage1 true L = L) : stage1 true (rows ++ L) = rows ++ L := by
  induction rows with
  | nil => simpa using hL
  | cons r rows' ih =>
    have hqr := hq r (List.mem_cons_self _ _)
    rw [List.cons_append, stage1_cons, hn r (List.mem_cons_self _ _),
      if_pos (by simp only [qLine, Bool.or_eq_true] at hqr; simp [hqr]),
      ih (fun x hx => hq x (List.mem_cons.mpr (Or.inr hx)))
        (fun x hx => hn x (List.mem_cons.mpr (Or.inr hx)))]

/-- The table state machine leaves a GoodLines list unchanged, from either
starting state. -/
lemma stage1_eq_of_good (L : List (List Char)) (hg : GoodLines L)
    (hn : ∀ l ∈ L, normalizeHeadingSpacing l = l) : ∀ b, stage1 b L = L := by
  induction hg with
  | nil => intro b; rfl
  | plain l L2 hp hg2 ih =>
    intro b
    have ihr := ih (fun x hx => hn x (List.mem_cons.mpr (Or.inr hx)))
    rw [stage1_cons, hn l (List.mem_cons_self _ _)]
    split_ifs
    · rw [ihr true]
    · rw [ihr true]
    · rw [hp, ihr false]
  | table hh ss rows L2 hpr hsep hrows hg2 ih =>
    intro b
    have hn2 : ∀ x ∈ ss :: (rows ++ L2), normalizeHeadingSpacing x = x :=
      fun x hx => hn x (List.mem_cons.mpr (Or.inr hx))
    have hnrows : ∀ r ∈ rows, normalizeHeadingSpacing r = r :=
      fun r hr => hn2 r (List.mem_cons.mpr (Or.inr (List.mem_append.mpr (Or.inl hr))))
    have hnL2 : ∀ x ∈ L2, normalizeHeadingSpacing x = x :=
      fun x hx => hn2 x (List.mem_cons.mpr (Or.inr (List.mem_append.mpr (Or.inr hx))))
    have hstep2 : stage1 true (ss :: (rows ++ L2)) = ss :: (rows ++ L2) := by
      rw [stage1_cons, hn2 ss (List.mem_cons_self _ _), if_pos (by simp [hsep]),
        stage1_rows_absorb rows L2 hrows hnrows (ih hnL2 true)]
    cases b with
    | true =>
      rw [stage1_cons, hn hh (List.mem_cons_self _ _), if_pos (by simp [hpr]), hstep2]
    | false =>
      rw [stage1_cons, hn hh (List.mem_cons_self _ _), if_neg (by simp),
        if_pos (by simp [hpr, hsep]), hstep2]

lemma stage1_true_eq (M : List (List Char))
    (hn : ∀ l ∈ M, normalizeHeadingSpacing l = l) :
    stage1 true M = M.takeWhile qLine ++ stage1 false (M.dropWhile qLine) := by
  induction M with
  | nil => rfl
  | cons m rest ih =>
    by_cases hq : qLine m = true
    · rw [stage1_cons, hn m (List.mem_cons_self _ _),
        if_pos (by simp only [qLine, Bool.or_eq_true] at hq; simp [hq]),
        ih (fun x hx => hn x (List.mem_cons.mpr (Or.inr hx))),
        show (m :: rest).takeWhile qLine = m :: rest.takeWhile qLine from by
          simp [List.takeWhile_cons, hq],
        show (m :: rest).dropWhile qLine = rest.dropWhile qLine from by
          simp [List.dropWhile, hq],
        List.cons_append]
    · have hq0 : qLine m = false := by revert hq; cases qLine m <;> simp
      have hq0s := hq0
      simp only [qLine, Bool.or_eq_false_iff] at hq0s
      rw [stage1_cons, hn m (List.mem_cons_self _ _),
        if_neg (by simp [hq0s.1, hq0s.2]), if_neg (by simp [hq0s.1]),
        show (m :: rest).takeWhile qLine = [] from by
          simp [List.takeWhile_cons, hq0],
        show (m :: rest).dropWhile qLine = m :: rest from by
          simp [List.dropWhile, hq0],
        show stage1 false (m :: rest) =
            normalizePipeHeavyLine (normalizeHeadingSpacing m) :: stage1 false rest from by
          rw [stage1_cons, if_neg (by simp), if_neg (by simp [hn m (List.mem_cons_self _ _), hq0s.1])],
        hn m (List.mem_cons_self _ _)]
      rfl

lemma goodLines_stage1_aux (n : Nat) :
    ∀ L : List (List Char), L.length ≤ n →
      (∀ l ∈ L, normalizeHeadingSpacing l = l) → GoodLines (stage1 false L) := by
  induction n with
  | zero =>
    intro L hlen _
    cases L with
    | nil => exact GoodLines.nil
    | cons l rest => simp at hlen
  | succ n ih =>
    intro L hlen hn
    cases L with
    | nil => exact GoodLines.nil
    | cons l rest =>
      by_cases hcase : isPipeRow l = true ∧ isTableSeparator ((rest.head?).getD []) = true
      · cases rest with
        | nil => exact absurd hcase.2 (by decide)
        | cons nx rest2 =>
          have hsep : isTableSeparator nx = true := hcase.2
          have hnrest2 : ∀ x ∈ rest2, normalizeHeadingSpacing x = x := fun x hx =>
            hn x (List.mem_cons.mpr (Or.inr (List.mem_cons.mpr (Or.inr hx))))
          rw [stage1_cons, hn l (List.mem_cons_self _ _), if_neg (by simp),
            if_pos (by simp [hcase.1, hsep]),
            show stage1 true (nx :: rest2) = nx :: stage1 true rest2 from by
              rw [stage1_cons,
                hn nx (List.mem_cons.mpr (Or.inr (List.mem_cons_self _ _))),
                if_pos (by simp [hsep])],
            stage1_true_eq rest2 hnrest2]
          refine GoodLines.table l nx (rest2.takeWhile qLine)
            (stage1 false (rest2.dropWhile qLine)) hcase.1 hsep
            (mem_takeWhile_q qLine rest2) ?_
          refine ih (rest2.dropWhile qLine) ?_ ?_
          · have h1 := (List.dropWhile_sublist (l := rest2) qLine).length_le
            simp at hlen
            omega
          · exact fun x hx => hnrest2 x ((List.dropWhile_sublist qLine).subset hx)
      · rw [stage1_cons, hn l (List.mem_cons_self _ _), if_neg (by simp), if_neg (by
          simp only [Bool.and_eq_true]
          intro hand
          exact hcase ⟨hand.1, hand.2⟩)]
        refine GoodLines.plain _ _ (nphl_idem l) ?_
        refine ih rest ?_ (fun x hx => hn x (List.mem_cons.mpr (Or.inr hx)))
        simp at hlen
        omega

/-- The first pass of the table state machine always produces a GoodLines
list. -/
lemma goodLines_stage1 (L : List (List Char))
    (hn : ∀ l ∈ L, normalizeHeadingSpacing l = l) : GoodLines (stage1 false L) :=
  goodLines_stage1_aux L.length L le_rfl hn
/-! GoodLines is preserved by the per-line whitespace transformations. -/

lemma mem_takeWhile_c (p : Char → Bool) (l : List Char) :
    ∀ c ∈ l.takeWhile p, p c = true := by
  induction l with
  | nil => intro c hc; simp at hc
  | cons a rest ih =>
    intro c hc
    by_cases ha : p a = true
    · rw [show (a :: rest).takeWhile p = a :: rest.takeWhile p from by
        simp [List.takeWhile_cons, ha]] at hc
      rcases List.mem_cons.mp hc with rfl | h2
      · exact ha
      · exact ih c h2
    · rw [show (a :: rest).takeWhile p = [] from by
        simp [List.takeWhile_cons,
          show p a = false from by revert ha; cases p a <;> simp]] at hc
      simp at hc

lemma revDropWhile_decomp (p : Char → Bool) (l : List Char) :
    ∃ w, l = (l.reverse.dropWhile p).reverse ++ w ∧ w.all p = true := by
  refine ⟨(l.reverse.takeWhile p).reverse, ?_, ?_⟩
  · rw [← List.reverse_append, List.takeWhile_append_dropWhile, List.reverse_reverse]
  · rw [List.all_eq_true]
    intro c hc
    exact mem_takeWhile_c p l.reverse c (List.mem_reverse.mp hc)

lemma no_pipe_of_all (p : Char → Bool) (w : List Char) (hw : w.all p = true)
    (hp : p '|' = false) : '|' ∉ w := by
  intro hm
  rw [(List.all_eq_true.mp hw) '|' hm] at hp
  cases hp

lemma all_st_ws (w : List Char) (hw : w.all isST = true) : w.all isJsWs = true := by
  rw [List.all_eq_true] at hw ⊢
  intro c hc
  have := hw c hc
  simp only [isST, Bool.or_eq_true, decide_eq_true_eq] at this
  rcases this with rfl | rfl <;> simp [isJsWs]

lemma stripTrailST_trans (l : List Char) :
    jsTrim (stripTrailST l) = jsTrim l ∧
    (normalizePipeHeavyLine l = l →
      normalizePipeHeavyLine (stripTrailST l) = stripTrailST l) := by
  obtain ⟨w, hdec, hall⟩ := revDropWhile_decomp isST l
  have hws : w.all isJsWs = true := all_st_ws w hall
  have hnp : '|' ∉ w := no_pipe_of_all isST w hall (by decide)
  constructor
  · conv_rhs => rw [show l = stripTrailST l ++ w from hdec]
    rw [jsTrim_append_ws _ w hws]
  · intro h
    rw [show l = stripTrailST l ++ w from hdec] at h
    exact (nphl_id_append_ws (stripTrailST l) w hws hnp).mp h

lemma dropTrailWs_trans (l : List Char) :
    jsTrim (dropTrailWs l) = jsTrim l ∧
    (normalizePipeHeavyLine l = l →
      normalizePipeHeavyLine (dropTrailWs l) = dropTrailWs l) := by
  obtain ⟨w, hdec, hall⟩ := revDropWhile_decomp isJsWs l
  have hnp : '|' ∉ w := no_pipe_of_all isJsWs w hall (by decide)
  constructor
  · conv_rhs => rw [show l = dropTrailWs l ++ w from hdec]
    rw [jsTrim_append_ws _ w hall]
  · intro h
    rw [show l = dropTrailWs l ++ w from hdec] at h
    exact (nphl_id_append_ws (dropTrailWs l) w hall hnp).mp h

lemma ldropWs_trans (l : List Char) :
    jsTrim (l.dropWhile isJsWs) = jsTrim l ∧
    (normalizePipeHeavyLine l = l →
      normalizePipeHeavyLine (l.dropWhile isJsWs) = l.dropWhile isJsWs) := by
  have hdec : l = l.takeWhile isJsWs ++ l.dropWhile isJsWs :=
    (List.takeWhile_append_dropWhile isJsWs l).symm
  have hall : (l.takeWhile isJsWs).all isJsWs = true := by
    rw [List.all_eq_true]
    intro c hc
    exact mem_takeWhile_c isJsWs l c hc
  have hnp : '|' ∉ l.takeWhile isJsWs := no_pipe_of_all isJsWs _ hall (by decide)
  constructor
  · conv_rhs => rw [hdec]
    rw [jsTrim_ws_append _ _ hall]
  · intro h
    rw [hdec] at h
    exact (nphl_id_prepend_ws _ (l.dropWhile isJsWs) hall hnp).mp h

lemma good_ltrimL (M : List (List Char)) (hg : GoodLines M) : GoodLines (ltrimL M) := by
  induction hg with
  | nil => exact GoodLines.nil
  | plain l L2 hp hg2 ih =>
    by_cases hc : l.all isJsWs = true ∧ L2 ≠ []
    · rw [show ltrimL (l :: L2) = ltrimL L2 from by
        simp only [ltrimL]; rw [if_pos hc]]
      exact ih
    · rw [show ltrimL (l :: L2) = l.dropWhile isJsWs :: L2 from by
        simp only [ltrimL]; rw [if_neg hc]]
      exact GoodLines.plain _ _ ((ldropWs_trans l).2 hp) hg2
  | table hh ss rows L2 hpr hsep hrows hg2 ih =>
    have hq : qLine hh = true := by simp [qLine, hpr]
    have hc : ¬ (hh.all isJsWs = true ∧ (ss :: (rows ++ L2)) ≠ []) := by
      rintro ⟨hall, -⟩
      exact qLine_ne_ws hh hq hall
    rw [show ltrimL (hh :: (ss :: (rows ++ L2))) =
        hh.dropWhile isJsWs :: (ss :: (rows ++ L2)) from by
      simp only [ltrimL]; rw [if_neg hc]]
    refine GoodLines.table _ ss rows L2 ?_ hsep hrows hg2
    rw [isPipeRow_congr (hh.dropWhile isJsWs) hh (ldropWs_trans hh).1]
    exact hpr

lemma rtrimL_table_tail (rows : List (List Char)) (L2 : List (List Char))
    (hq : ∀ r ∈ rows, qLine r = true) (ih : GoodLines (rtrimL L2)) :
    ∃ rows2 L3, rtrimL (rows ++ L2) = rows2 ++ L3 ∧
      (∀ r ∈ rows2, qLine r = true) ∧ GoodLines L3 := by
  induction rows with
  | nil => exact ⟨[], rtrimL L2, rfl, by simp, ih⟩
  | cons r rows' ihr =>
    by_cases hw : (rows' ++ L2).all (fun m => m.all isJsWs) = true
    · rw [show rtrimL ((r :: rows') ++ L2) = [dropTrailWs r] from by
        rw [List.cons_append]
        simp only [rtrimL]
        rw [if_pos hw]]
      refine ⟨[dropTrailWs r], [], rfl, ?_, GoodLines.nil⟩
      intro x hx
      rcases List.mem_cons.mp hx with rfl | h2
      · rw [qLine_congr (dropTrailWs r) r (dropTrailWs_trans r).1]
        exact hq r (List.mem_cons_self _ _)
      · simp at h2
    · obtain ⟨rows2, L3, heq, hq2, hg3⟩ :=
        ihr (fun x hx => hq x (List.mem_cons.mpr (Or.inr hx)))
      refine ⟨r :: rows2, L3, ?_, ?_, hg3⟩
      · rw [show rtrimL ((r :: rows') ++ L2) = r :: rtrimL (rows' ++ L2) from by
          rw [List.cons_append]
          simp only [rtrimL]
          rw [if_neg hw], heq]
        rfl
      · intro x hx
        rcases List.mem_cons.mp hx with rfl | h2
        · exact hq _ (List.mem_cons_self _ _)
        · exact hq2 x h2

lemma not_all_ws_of_q (ss : List Char) (rest : List (List Char))
    (hsep : isTableSeparator ss = true) :
    ¬ (ss :: rest).all (fun m => m.all isJsWs) = true := by
  intro hall
  exact qLine_ne_ws ss (by simp [qLine, hsep])
    ((List.all_eq_true.mp hall) ss (List.mem_cons_self _ _))

lemma good_rtrimL (M : List (List Char)) (hg : GoodLines M) : GoodLines (rtrimL M) := by
  induction hg with
  | nil => exact GoodLines.nil
  | plain l L2 hp hg2 ih =>
    by_cases hw : L2.all (fun m => m.all isJsWs) = true
    · rw [show rtrimL (l :: L2) = [dropTrailWs l] from by
        simp only [rtrimL]; rw [if_pos hw]]
      exact GoodLines.plain _ _ ((dropTrailWs_trans l).2 hp) GoodLines.nil
    · rw [show rtrimL (l :: L2) = l :: rtrimL L2 from by
        simp only [rtrimL]; rw [if_neg hw]]
      exact GoodLines.plain _ _ hp ih
  | table hh ss rows L2 hpr hsep hrows hg2 ih =>
    have hw1 : ¬ (ss :: (rows ++ L2)).all (fun m => m.all isJsWs) = true :=
      not_all_ws_of_q ss (rows ++ L2) hsep
    rw [show rtrimL (hh :: (ss :: (rows ++ L2))) =
        hh :: rtrimL (ss :: (rows ++ L2)) from by
      simp only [rtrimL]; rw [if_neg hw1]]
    by_cases hw2 : (rows ++ L2).all (fun m => m.all isJsWs) = true
    · rw [show rtrimL (ss :: (rows ++ L2)) = [dropTrailWs ss] from by
        simp only [rtrimL]; rw [if_pos hw2]]
      have := GoodLines.table hh (dropTrailWs ss) [] [] hpr
        (by rw [isTableSeparator_congr (dropTrailWs ss) ss (dropTrailWs_trans ss).1]
            exact hsep)
        (by simp) GoodLines.nil
      simpa using this
    · rw [show rtrimL (ss :: (rows ++ L2)) = ss :: rtrimL (rows ++ L2) from by
        simp only [rtrimL]; rw [if_neg hw2]]
      obtain ⟨rows2, L3, heq, hq2, hg3⟩ := rtrimL_table_tail rows L2 hrows ih
      rw [heq]
      exact GoodLines.table hh ss rows2 L3 hpr hsep hq2 hg3
/-! GoodLines is preserved by the newline-collapse and trailing-space
passes, and no pass introduces new characters into lines. -/

lemma r1Lines_table_tail (rows L2 : List (List Char))
    (hq : ∀ r ∈ rows, qLine r = true) (hgr : GoodLines (r1Lines L2)) :
    ∃ rows2 L3, r1Lines (rows ++ L2) = rows2 ++ L3 ∧
      (∀ r ∈ rows2, qLine r = true) ∧ GoodLines L3 := by
  induction rows with
  | nil => exact ⟨[], r1Lines L2, rfl, by simp, hgr⟩
  | cons r rows' ihr =>
    cases hrl : rows' ++ L2 with
    | nil =>
      refine ⟨[r], [], ?_, ?_, GoodLines.nil⟩
      · rw [List.cons_append, hrl]
        rfl
      · intro x hx
        rcases List.mem_cons.mp hx with rfl | h2
        · exact hq _ (List.mem_cons_self _ _)
        · simp at h2
    | cons x xs =>
      obtain ⟨rows2, L3, heq, hq2, hg3⟩ :=
        ihr (fun y hy => hq y (List.mem_cons.mpr (Or.inr hy)))
      refine ⟨stripTrailST r :: rows2, L3, ?_, ?_, hg3⟩
      · rw [List.cons_append, hrl,
          show r1Lines (r :: x :: xs) = stripTrailST r :: r1Lines (x :: xs) from rfl,
          ← hrl, heq]
        rfl
      · intro y hy
        rcases List.mem_cons.mp hy with rfl | h2
        · rw [qLine_congr (stripTrailST r) r (stripTrailST_trans r).1]
          exact hq _ (List.mem_cons_self _ _)
        · exact hq2 y h2

lemma good_r1Lines (M : List (List Char)) (hg : GoodLines M) : GoodLines (r1Lines M) := by
  induction hg with
  | nil => exact GoodLines.nil
  | plain l L2 hp hg2 ih =>
    cases L2 with
    | nil =>
      rw [show r1Lines [l] = [l] from rfl]
      exact GoodLines.plain l [] hp GoodLines.nil
    | cons x xs =>
      rw [show r1Lines (l :: x :: xs) = stripTrailST l :: r1Lines (x :: xs) from rfl]
      exact GoodLines.plain _ _ ((stripTrailST_trans l).2 hp) ih
  | table hh ss rows L2 hpr hsep hrows hg2 ih =>
    rw [show r1Lines (hh :: ss :: (rows ++ L2)) =
        stripTrailST hh :: r1Lines (ss :: (rows ++ L2)) from rfl]
    have hprh : isPipeRow (stripTrailST hh) = true := by
      rw [isPipeRow_congr (stripTrailST hh) hh (stripTrailST_trans hh).1]
      exact hpr
    cases hrl : rows ++ L2 with
    | nil =>
      rw [show r1Lines [ss] = [ss] from rfl]
      have := GoodLines.table (stripTrailST hh) ss [] [] hprh hsep (by simp) GoodLines.nil
      simpa using this
    | cons x xs =>
      rw [show r1Lines (ss :: x :: xs) = stripTrailST ss :: r1Lines (x :: xs) from rfl,
        ← hrl]
      obtain ⟨rows2, L3, heq, hq2, hg3⟩ := r1Lines_table_tail rows L2 hrows ih
      rw [heq]
      refine GoodLines.table (stripTrailST hh) (stripTrailST ss) rows2 L3 hprh ?_ hq2 hg3
      rw [isTableSeparator_congr (stripTrailST ss) ss (stripTrailST_trans ss).1]
      exact hsep

lemma r4L_append_ne (A B : List (List Char)) (hA : ∀ w ∈ A, w ≠ []) :
    r4L (A ++ B) = A ++ r4L B := by
  induction A with
  | nil => rfl
  | cons a A' ih =>
    cases hAB : A' ++ B with
    | nil =>
      obtain ⟨hA', hB⟩ := List.append_eq_nil.mp hAB
      subst hA'
      subst hB
      rfl
    | cons x xs =>
      rw [List.cons_append, hAB,
        show r4L (a :: x :: xs) = a :: r4L (x :: xs) from by
          simp only [r4L]
          rw [if_neg (by
            rintro ⟨ha, -, -⟩
            exact hA a (List.mem_cons_self _ _) ha)],
        ← hAB, ih (fun w hw => hA w (List.mem_cons.mpr (Or.inr hw)))]
      rfl

lemma good_r4L (M : List (List Char)) (hg : GoodLines M) : GoodLines (r4L M) := by
  induction hg with
  | nil => exact GoodLines.nil
  | plain l L2 hp hg2 ih =>
    cases L2 with
    | nil =>
      rw [show r4L [l] = [l] from rfl]
      exact GoodLines.plain l [] hp GoodLines.nil
    | cons m rest =>
      by_cases hc : l = [] ∧ m = [] ∧ rest ≠ []
      · rw [show r4L (l :: m :: rest) = r4L (m :: rest) from by
          simp only [r4L]; rw [if_pos hc]]
        exact ih
      · rw [show r4L (l :: m :: rest) = l :: r4L (m :: rest) from by
          simp only [r4L]; rw [if_neg hc]]
        exact GoodLines.plain _ _ hp ih
  | table hh ss rows L2 hpr hsep hrows hg2 ih =>
    have hhne : hh ≠ [] := qLine_ne_nil hh (by simp [qLine, hpr])
    have hssne : ss ≠ [] := qLine_ne_nil ss (by simp [qLine, hsep])
    have hrowsne : ∀ r ∈ rows, r ≠ [] := fun r hr => qLine_ne_nil r (hrows r hr)
    rw [show r4L (hh :: ss :: (rows ++ L2)) = hh :: r4L (ss :: (rows ++ L2)) from by
      simp only [r4L]
      rw [if_neg (by rintro ⟨h1, -, -⟩; exact hhne h1)]]
    cases hrl : rows ++ L2 with
    | nil =>
      rw [show r4L [ss] = [ss] from rfl]
      have := GoodLines.table hh ss [] [] hpr hsep (by simp) GoodLines.nil
      simpa using this
    | cons x xs =>
      rw [show r4L (ss :: x :: xs) = ss :: r4L (x :: xs) from by
          simp only [r4L]
          rw [if_neg (by rintro ⟨h1, -, -⟩; exact hssne h1)],
        ← hrl, r4L_append_ne rows L2 hrowsne]
      exact GoodLines.table hh ss rows (r4L L2) hpr hsep hrows ih

lemma good_r4Lines (M : List (List Char)) (hg : GoodLines M) : GoodLines (r4Lines M) := by
  cases M with
  | nil => exact GoodLines.nil
  | cons l L2 =>
    rw [show r4Lines (l :: L2) = l :: r4L L2 from rfl]
    rcases good_cons l L2 hg with ⟨hp, hg2⟩ | ⟨s, rows, L3, hL, hpr, hsep, hq, hg3⟩
    · exact GoodLines.plain _ _ hp (good_r4L L2 hg2)
    · subst hL
      have hsne : s ≠ [] := qLine_ne_nil s (by simp [qLine, hsep])
      have hrowsne : ∀ r ∈ rows, r ≠ [] := fun r hr => qLine_ne_nil r (hq r hr)
      cases hrl : rows ++ L3 with
      | nil =>
        rw [show r4L [s] = [s] from rfl]
        have := GoodLines.table l s [] [] hpr hsep (by simp) GoodLines.nil
        simpa using this
      | cons x xs =>
        rw [show r4L (s :: x :: xs) = s :: r4L (x :: xs) from by
            simp only [r4L]
            rw [if_neg (by rintro ⟨h1, -, -⟩; exact hsne h1)],
          ← hrl, r4L_append_ne rows L3 hrowsne]
        exact GoodLines.table l s rows (r4L L3) hpr hsep hq (good_r4L L3 hg3)

lemma nhs_mem (l : List Char) (c : Char) (hc : c ∈ normalizeHeadingSpacing l) :
    c ∈ l ∨ c = ' ' := by
  simp only [normalizeHeadingSpacing] at hc
  split at hc
  · exact Or.inl hc
  · split at hc
    · split at hc
      · split at hc
        · exact Or.inl hc
        · rcases List.mem_append.mp hc with h | h
          · exact Or.inl ((List.take_sublist _ _).subset h)
          · rcases List.mem_cons.mp h with rfl | h2
            · exact Or.inr rfl
            · exact Or.inl ((List.drop_sublist _ _).subset h2)
      · exact Or.inl hc
    · exact Or.inl hc

lemma nphl_mem (l : List Char) (c : Char) (hc : c ∈ normalizePipeHeavyLine l) :
    c ∈ l ∨ c = '-' ∨ c = ' ' ∨ c = '；' := by
  simp only [normalizePipeHeavyLine] at hc
  split at hc
  · exact Or.inl hc
  · split at hc
    · exact Or.inl hc
    · rcases List.mem_cons.mp hc with rfl | hc2
      · exact Or.inr (Or.inl rfl)
      · rcases List.mem_cons.mp hc2 with rfl | hc3
        · exact Or.inr (Or.inr (Or.inl rfl))
        · rcases joinWith_mem '；' _ c hc3 with rfl | ⟨x, hx, hcx⟩
          · exact Or.inr (Or.inr (Or.inr rfl))
          · obtain ⟨p, hp, hpx⟩ := List.mem_map.mp (List.mem_filter.mp hx).1
            exact Or.inl (splitOnChar_mem '|' l p hp c
              (infx_subset _ _ (hpx ▸ jsTrim_infx p) c hcx))

lemma stage1_mem (L : List (List Char)) :
    ∀ (b : Bool) (l2 : List Char) (c : Char), l2 ∈ stage1 b L → c ∈ l2 →
      (∃ l ∈ L, c ∈ l) ∨ c = ' ' ∨ c = '-' ∨ c = '；' := by
  induction L with
  | nil =>
    intro b l2 c hl2
    simp [stage1] at hl2
  | cons l rest ih =>
    intro b l2 c hl2 hc
    have hlift : ∀ b2, l2 ∈ stage1 b2 rest →
        (∃ x ∈ l :: rest, c ∈ x) ∨ c = ' ' ∨ c = '-' ∨ c = '；' := by
      intro b2 h2
      rcases ih b2 l2 c h2 hc with ⟨x, hx, hcx⟩ | h3
      · exact Or.inl ⟨x, List.mem_cons.mpr (Or.inr hx), hcx⟩
      · exact Or.inr h3
    have hhead : c ∈ normalizeHeadingSpacing l →
        (∃ x ∈ l :: rest, c ∈ x) ∨ c = ' ' ∨ c = '-' ∨ c = '；' := by
      intro hcn
      rcases nhs_mem l c hcn with h | rfl
      · exact Or.inl ⟨l, List.mem_cons_self _ _, h⟩
      · exact Or.inr (Or.inl rfl)
    rw [stage1_cons] at hl2
    split at hl2
    · rcases List.mem_cons.mp hl2 with rfl | h2
      · exact hhead hc
      · exact hlift true h2
    · split at hl2
      · rcases List.mem_cons.mp hl2 with rfl | h2
        · exact hhead hc
        · exact hlift true h2
      · rcases List.mem_cons.mp hl2 with rfl | h2
        · rcases nphl_mem _ c hc with h | h
          · exact hhead h
          · exact Or.inr (by tauto)
        · exact hlift false h2

lemma stripTrailST_subset (l : List Char) (c : Char) (hc : c ∈ stripTrailST l) : c ∈ l := by
  obtain ⟨w, hdec, -⟩ := revDropWhile_decomp isST l
  rw [show l = stripTrailST l ++ w from hdec]
  exact List.mem_append.mpr (Or.inl hc)

lemma dropTrailWs_subset (l : List Char) (c : Char) (hc : c ∈ dropTrailWs l) : c ∈ l := by
  obtain ⟨w, hdec, -⟩ := revDropWhile_decomp isJsWs l
  rw [show l = dropTrailWs l ++ w from hdec]
  exact List.mem_append.mpr (Or.inl hc)

lemma r1Lines_not_mem (M : List (List Char)) (c : Char) (h : ∀ l ∈ M, c ∉ l) :
    ∀ x ∈ r1Lines M, c ∉ x := by
  induction M with
  | nil => intro x hx; simp [r1Lines] at hx
  | cons l rest ih =>
    intro x hx
    cases rest with
    | nil =>
      rw [show r1Lines [l] = [l] from rfl] at hx
      rcases List.mem_cons.mp hx with rfl | h2
      · exact h x (List.mem_cons_self _ _)
      · simp at h2
    | cons m rest' =>
      rw [show r1Lines (l :: m :: rest') = stripTrailST l :: r1Lines (m :: rest') from
        rfl] at hx
      rcases List.mem_cons.mp hx with rfl | h2
      · intro hcx
        exact h l (List.mem_cons_self _ _) (stripTrailST_subset l c hcx)
      · exact ih (fun y hy => h y (List.mem_cons.mpr (Or.inr hy))) x h2

lemma r4L_not_mem (M : List (List Char)) (c : Char) (h : ∀ l ∈ M, c ∉ l) :
    ∀ x ∈ r4L M, c ∉ x := by
  induction M with
  | nil => intro x hx; simp [r4L] at hx
  | cons l rest ih =>
    intro x hx
    cases rest with
    | nil =>
      rw [show r4L [l] = [l] from rfl] at hx
      rcases List.mem_cons.mp hx with rfl | h2
      · exact h x (List.mem_cons_self _ _)
      · simp at h2
    | cons m rest' =>
      by_cases hc2 : l = [] ∧ m = [] ∧ rest' ≠ []
      · rw [show r4L (l :: m :: rest') = r4L (m :: rest') from by
          simp only [r4L]; rw [if_pos hc2]] at hx
        exact ih (fun y hy => h y (List.mem_cons.mpr (Or.inr hy))) x hx
      · rw [show r4L (l :: m :: rest') = l :: r4L (m :: rest') from by
          simp only [r4L]; rw [if_neg hc2]] at hx
        rcases List.mem_cons.mp hx with rfl | h2
        · exact h x (List.mem_cons_self _ _)
        · exact ih (fun y hy => h y (List.mem_cons.mpr (Or.inr hy))) x h2

lemma r4Lines_not_mem (M : List (List Char)) (c : Char) (h : ∀ l ∈ M, c ∉ l) :
    ∀ x ∈ r4Lines M, c ∉ x := by
  cases M with
  | nil => intro x hx; simp [r4Lines] at hx
  | cons l rest =>
    intro x hx
    rw [show r4Lines (l :: rest) = l :: r4L rest from rfl] at hx
    rcases List.mem_cons.mp hx with rfl | h2
    · exact h x (List.mem_cons_self _ _)
    · exact r4L_not_mem rest c (fun y hy => h y (List.mem_cons.mpr (Or.inr hy))) x h2

lemma ltrimL_not_mem (M : List (List Char)) (c : Char) (h : ∀ l ∈ M, c ∉ l) :
    ∀ x ∈ ltrimL M, c ∉ x := by
  induction M with
  | nil => intro x hx; simp [ltrimL] at hx
  | cons l rest ih =>
    intro x hx
    by_cases hc2 : l.all isJsWs = true ∧ rest ≠ []
    · rw [show ltrimL (l :: rest) = ltrimL rest from by
        simp only [ltrimL]; rw [if_pos hc2]] at hx
      exact ih (fun y hy => h y (List.mem_cons.mpr (Or.inr hy))) x hx
    · rw [show ltrimL (l :: rest) = l.dropWhile isJsWs :: rest from by
        simp only [ltrimL]; rw [if_neg hc2]] at hx
      rcases List.mem_cons.mp hx with rfl | h2
      · intro hcx
        exact h l (List.mem_cons_self _ _) ((List.dropWhile_sublist isJsWs).subset hcx)
      · exact h x (List.mem_cons.mpr (Or.inr h2))

lemma rtrimL_not_mem (M : List (List Char)) (c : Char) (h : ∀ l ∈ M, c ∉ l) :
    ∀ x ∈ rtrimL M, c ∉ x := by
  induction M with
  | nil => intro x hx; simp [rtrimL] at hx
  | cons l rest ih =>
    intro x hx
    by_cases hw : rest.all (fun m => m.all isJsWs) = true
    · rw [show rtrimL (l :: rest) = [dropTrailWs l] from by
        simp only [rtrimL]; rw [if_pos hw]] at hx
      rcases List.mem_cons.mp hx with rfl | h2
      · intro hcx
        exact h l (List.mem_cons_self _ _) (dropTrailWs_subset l c hcx)
      · simp at h2
    · rw [show rtrimL (l :: rest) = l :: rtrimL rest from by
        simp only [rtrimL]; rw [if_neg hw]] at hx
      rcases List.mem_cons.mp hx with rfl | h2
      · exact h x (List.mem_cons_self _ _)
      · exact ih (fun y hy => h y (List.mem_cons.mpr (Or.inr hy))) x h2
lemma normalizeSummaryMarkdown_eq (md : List Char) (h : ¬ jsTrim md = []) :
    normalizeSummaryMarkdown md =
      jsTrim (r4 (r3 (r2 (r1 (joinNl (stage1 false (splitNl (stripBOM (normCR md))))))))) := by
  simp only [normalizeSummaryMarkdown]
  rw [if_neg h]

lemma r1Lines_ne_nil (M : List (List Char)) (h : M ≠ []) : r1Lines M ≠ [] := by
  cases M with
  | nil => exact absurd rfl h
  | cons l rest =>
    cases rest with
    | nil => simp [r1Lines]
    | cons m r2 => simp [r1Lines]

lemma r4Lines_ne_nil (M : List (List Char)) (h : M ≠ []) : r4Lines M ≠ [] := by
  cases M with
  | nil => exact absurd rfl h
  | cons l rest => simp [r4Lines]

lemma ltrimL_ne_nil (M : List (List Char)) (h : M ≠ []) : ltrimL M ≠ [] := by
  induction M with
  | nil => exact absurd rfl h
  | cons l rest ih =>
    by_cases hc : l.all isJsWs = true ∧ rest ≠ []
    · rw [show ltrimL (l :: rest) = ltrimL rest from by
        simp only [ltrimL]; rw [if_pos hc]]
      exact ih hc.2
    · rw [show ltrimL (l :: rest) = l.dropWhile isJsWs :: rest from by
        simp only [ltrimL]; rw [if_neg hc]]
      simp

/-- C5 amended: normalizeSummaryMarkdown is idempotent on every input that
contains no hash character. -/
theorem normalizeSummaryMarkdown_idem_clean (md : List Char) (hh : '#' ∉ md) :
    normalizeSummaryMarkdown (normalizeSummaryMarkdown md) = normalizeSummaryMarkdown md := by
  by_cases h0 : jsTrim md = []
  · rw [show normalizeSummaryMarkdown md = md from by
      simp only [normalizeSummaryMarkdown]; rw [if_pos h0]]
    simp only [normalizeSummaryMarkdown]
    rw [if_pos h0]
  · have hxh : '#' ∉ stripBOM (normCR md) := fun hm =>
      hh (mem_normCR md '#' (by decide) ((stripBOM_sublist _).subset hm))
    have hxcr : '\r' ∉ stripBOM (normCR md) := fun hm =>
      normCR_no_cr md ((stripBOM_sublist _).subset hm)
    set x := stripBOM (normCR md) with hxdef
    have hL0nl : ∀ l ∈ splitNl x, '\n' ∉ l := fun l hl hm =>
      splitOnChar_sep_not_mem '\n' x l hl hm
    have hL0h : ∀ l ∈ splitNl x, '#' ∉ l := fun l hl hm =>
      hxh (splitOnChar_mem '\n' x l hl '#' hm)
    have hL0cr : ∀ l ∈ splitNl x, '\r' ∉ l := fun l hl hm =>
      hxcr (splitOnChar_mem '\n' x l hl '\r' hm)
    have hn0 : ∀ l ∈ splitNl x, normalizeHeadingSpacing l = l := fun l hl =>
      nhs_id l (hL0h l hl)
    set L1 := stage1 false (splitNl x) with hL1def
    have hstage1mem : ∀ (c : Char), c ≠ ' ' → c ≠ '-' → c ≠ '；' →
        (∀ l ∈ splitNl x, c ∉ l) → ∀ l ∈ L1, c ∉ l := by
      intro c hc1 hc2 hc3 hfree l hl hm
      rcases stage1_mem (splitNl x) false l c (hL1def ▸ hl) hm with ⟨l0, hl0, hml0⟩ | h3
      · exact hfree l0 hl0 hml0
      · rcases h3 with h | h | h
        · exact hc1 h
        · exact hc2 h
        · exact hc3 h
    have hL1h : ∀ l ∈ L1, '#' ∉ l :=
      hstage1mem '#' (by decide) (by decide) (by decide) hL0h
    have hL1nl : ∀ l ∈ L1, '\n' ∉ l :=
      hstage1mem '\n' (by decide) (by decide) (by decide) hL0nl
    have hL1cr : ∀ l ∈ L1, '\r' ∉ l :=
      hstage1mem '\r' (by decide) (by decide) (by decide) hL0cr
    have hgood1 : GoodLines L1 := by
      rw [hL1def]
      exact goodLines_stage1 (splitNl x) hn0
    have hL1ne : L1 ≠ [] := by
      rw [hL1def]
      cases hsnl : splitNl x with
      | nil => exact absurd hsnl (splitOnChar_ne_nil '\n' x)
      | cons a b =>
        rw [stage1_cons]
        split_ifs <;> simp
    have hJh : '#' ∉ joinNl L1 := by
      intro hm
      rcases joinNl_mem L1 '#' hm with h | ⟨l, hl, hcl⟩
      · exact absurd h (by decide)
      · exact hL1h l hl hcl
    have hy : normalizeSummaryMarkdown md = jsTrim (r4 (r1 (joinNl L1))) := by
      rw [normalizeSummaryMarkdown_eq md h0, ← hxdef, ← hL1def,
        r2_id _ (fun hm => hJh ((r1_sublist _).subset hm)),
        show r3 (r1 (joinNl L1)) = r1 (joinNl L1) from
          r3Aux_id lookaheadExcluded _ (fun hm => hJh ((r1_sublist _).subset hm)) true]
    have hM1nl : ∀ l ∈ r1Lines L1, '\n' ∉ l := r1Lines_not_mem L1 '\n' hL1nl
    have hM2nl : ∀ l ∈ r4Lines (r1Lines L1), '\n' ∉ l :=
      r4Lines_not_mem _ '\n' hM1nl
    have hM3nl : ∀ l ∈ rtrimL (ltrimL (r4Lines (r1Lines L1))), '\n' ∉ l :=
      rtrimL_not_mem _ '\n' (ltrimL_not_mem _ '\n' hM2nl)
    have hM3h : ∀ l ∈ rtrimL (ltrimL (r4Lines (r1Lines L1))), '#' ∉ l :=
      rtrimL_not_mem _ '#' (ltrimL_not_mem _ '#'
        (r4Lines_not_mem _ '#' (r1Lines_not_mem L1 '#' hL1h)))
    have hM3cr : ∀ l ∈ rtrimL (ltrimL (r4Lines (r1Lines L1))), '\r' ∉ l :=
      rtrimL_not_mem _ '\r' (ltrimL_not_mem _ '\r'
        (r4Lines_not_mem _ '\r' (r1Lines_not_mem L1 '\r' hL1cr)))
    have hM3ne : rtrimL (ltrimL (r4Lines (r1Lines L1))) ≠ [] :=
      rtrimL_ne_nil _ (ltrimL_ne_nil _ (r4Lines_ne_nil _ (r1Lines_ne_nil _ hL1ne)))
    have hgood3 : GoodLines (rtrimL (ltrimL (r4Lines (r1Lines L1)))) :=
      good_rtrimL _ (good_ltrimL _ (good_r4Lines _ (good_r1Lines _ hgood1)))
    have hyform : jsTrim (r4 (r1 (joinNl L1))) =
        joinNl (rtrimL (ltrimL (r4Lines (r1Lines L1)))) := by
      rw [r1_joinNl L1 hL1nl, r4_joinNl _ hM1nl]
      show dropTrailWs ((joinNl (r4Lines (r1Lines L1))).dropWhile isJsWs) = _
      rw [ltrim_joinNl, rtrim_joinNl]
    have hych : '#' ∉ joinNl (rtrimL (ltrimL (r4Lines (r1Lines L1)))) := by
      intro hm
      rcases joinNl_mem _ '#' hm with h | ⟨l, hl, hcl⟩
      · exact absurd h (by decide)
      · exact hM3h l hl hcl
    have hycr : '\r' ∉ joinNl (rtrimL (ltrimL (r4Lines (r1Lines L1)))) := by
      intro hm
      rcases joinNl_mem _ '\r' hm with h | ⟨l, hl, hcl⟩
      · exact absurd h (by decide)
      · exact hM3cr l hl hcl
    have hjy : jsTrim (joinNl (rtrimL (ltrimL (r4Lines (r1Lines L1))))) =
        joinNl (rtrimL (ltrimL (r4Lines (r1Lines L1)))) := by
      rw [← hyform, jsTrim_idem, hyform]
    rw [hy, hyform]
    by_cases hy0 : joinNl (rtrimL (ltrimL (r4Lines (r1Lines L1)))) = []
    · rw [hy0]
      simp only [normalizeSummaryMarkdown]
      rw [if_pos (by decide)]
    · have hjy0 : ¬ jsTrim (joinNl (rtrimL (ltrimL (r4Lines (r1Lines L1))))) = [] := by
        rw [hjy]
        exact hy0
      have hyinf : joinNl (rtrimL (ltrimL (r4Lines (r1Lines L1)))) <:+:
          r4 (r1 (joinNl L1)) := by
        rw [← hyform]
        exact jsTrim_infx _
      have htw1 : containsSub [' ', '\n']
          (joinNl (rtrimL (ltrimL (r4Lines (r1Lines L1))))) = false :=
        containsSub_false_of_infx _ _ _ hyinf
          (r4_pres_pat ' ' _ (r1_no_tw (joinNl L1)).1)
      have htw2 : containsSub ['\t', '\n']
          (joinNl (rtrimL (ltrimL (r4Lines (r1Lines L1))))) = false :=
        containsSub_false_of_infx _ _ _ hyinf
          (r4_pres_pat '\t' _ (r1_no_tw (joinNl L1)).2)
      have htr : containsSub ['\n', '\n', '\n']
          (joinNl (rtrimL (ltrimL (r4Lines (r1Lines L1))))) = false :=
        containsSub_false_of_infx _ _ _ hyinf (r4_no_triple _)
      have hbom : stripBOM (joinNl (rtrimL (ltrimL (r4Lines (r1Lines L1))))) =
          joinNl (rtrimL (ltrimL (r4Lines (r1Lines L1)))) := by
        refine stripBOM_id _ (fun c hc hfe => ?_)
        have hws : isJsWs c = false :=
          jsTrim_head_not_ws (r4 (r1 (joinNl L1))) c (hyform.symm ▸ hc)
        have hwt : isJsWs c = true := by simp [isJsWs, hfe]
        rw [hwt] at hws
        cases hws
      rw [normalizeSummaryMarkdown_eq _ hjy0, normCR_id _ hycr, hbom,
        splitNl_joinNl _ hM3nl hM3ne,
        stage1_eq_of_good _ hgood3 (fun l hl => nhs_id l (hM3h l hl)) false,
        r1_id _ htw1 htw2, r2_id _ hych,
        show r3 (joinNl (rtrimL (ltrimL (r4Lines (r1Lines L1))))) =
            joinNl (rtrimL (ltrimL (r4Lines (r1Lines L1)))) from
          r3Aux_id lookaheadExcluded _ hych true,
        r4_id _ htr, hjy]

/-- Witness for the amended C5 theorem on a concrete hash-free input
containing a pipe-heavy row, trailing spaces and a run of blank lines. -/
theorem normalizeSummaryMarkdown_idem_clean_witness :
    '#' ∉ "a | b | c | d | e\n\n\n\nf  ".data ∧
    normalizeSummaryMarkdown (normalizeSummaryMarkdown "a | b | c | d | e\n\n\n\nf  ".data) =
      normalizeSummaryMarkdown "a | b | c | d | e\n\n\n\nf  ".data :=
  ⟨by decide,
   normalizeSummaryMarkdown_idem_clean "a | b | c | d | e\n\n\n\nf  ".data (by decide)⟩
